import Mathlib

/-!
Verification development for the `tts` in-memory time-series server.

The definitions below are a shallow embedding of the C sources:

* `pack.c`             — big-endian integer packing primitives;
* `tts_protocol.c`     — the wire codec (`pack_tts_packet` / `unpack_tts_packet`);
* `tts_vector.h`       — the growable vector and its `TTS_VECTOR_BINSEARCH`;
* `tts_handlers.c`     — the request handlers over the in-memory registry.

Machine integers are modelled as `Nat` with explicit `% 2^w` wherever the C
code can overflow or wrap (`size_t` subtraction is `wsub`).  Buffers are
`List Nat` of byte values; a C read past the end of a buffer (unspecified
memory) is modelled as reading `0`.  `long double` sample values are modelled
as exact rationals `ℚ`; IEEE-754 `double` arithmetic (which the C code uses
for timestamp and window computations via the literals `1e9` / `1e6`) is
modelled bit-faithfully by an explicit round-to-nearest-even function `rnd`.
Loops that are driven by a remaining-length counter (which the C code can
underflow) are given explicit fuel; the fuel is sufficient in every run the
theorems below talk about.
-/

/-- 64-bit wrap-around subtraction: the semantics of `a - b` on `size_t`
(assuming 64-bit `size_t`, as on the target platform). -/
def wsub (a b : Nat) : Nat := (a + (2 ^ 64 - b % 2 ^ 64)) % 2 ^ 64

/-! ### Byte packing primitives (`pack.c`)

`packi16`/`packi32`/`packi64` store an integer big-endian, truncating each
byte store to `uint8_t`.  The decoders consume bytes from the front of the
buffer (the C code advances a pointer); reading past the end of the received
buffer yields unspecified memory, modelled here as the byte `0`. -/

def packi16 (v : Nat) : List Nat :=
  [v / 2 ^ 8 % 2 ^ 8, v % 2 ^ 8]

def packi32 (v : Nat) : List Nat :=
  [v / 2 ^ 24 % 2 ^ 8, v / 2 ^ 16 % 2 ^ 8, v / 2 ^ 8 % 2 ^ 8, v % 2 ^ 8]

def packi64 (v : Nat) : List Nat :=
  [v / 2 ^ 56 % 2 ^ 8, v / 2 ^ 48 % 2 ^ 8, v / 2 ^ 40 % 2 ^ 8,
   v / 2 ^ 32 % 2 ^ 8, v / 2 ^ 24 % 2 ^ 8, v / 2 ^ 16 % 2 ^ 8,
   v / 2 ^ 8 % 2 ^ 8, v % 2 ^ 8]

def unpacku8 : List Nat → Nat × List Nat
  | [] => (0, [])
  | b :: r => (b, r)

def unpacku16 (buf : List Nat) : Nat × List Nat :=
  let (a, r) := unpacku8 buf
  let (b, r') := unpacku8 r
  (a * 2 ^ 8 + b, r')

def unpacku32 (buf : List Nat) : Nat × List Nat :=
  let (a, r) := unpacku16 buf
  let (b, r') := unpacku16 r
  (a * 2 ^ 16 + b, r')

def unpacku64 (buf : List Nat) : Nat × List Nat :=
  let (a, r) := unpacku32 buf
  let (b, r') := unpacku32 r
  (a * 2 ^ 32 + b, r')

/-- `unpack_bytes` copies exactly `n` bytes (reads past the end give `0`). -/
def unpack_bytes : Nat → List Nat → List Nat × List Nat
  | 0, buf => ([], buf)
  | n + 1, [] => (0 :: (unpack_bytes n []).1, [])
  | n + 1, b :: r =>
    let (bs, rest) := unpack_bytes n r
    (b :: bs, rest)

/-! ### Wire codec data model (`tts_protocol.c`)

`tts_protocol.c` in this tree is written against an earlier generation of the
packet structures than `tts_protocol.h` declares (it uses `struct tts_create`
with a `fields` array, `struct tts_query_ack`, a `mean_field` query bit, and
switches on the raw header byte, which equals the opcode for the packets this
codec produces).  The structures below are reconstructed from their use sites
in `tts_protocol.c`.  A C struct stores a separate `uint8_t`/`uint16_t`
length next to each byte array; here the array is a `List Nat` and the length
field is its (truncated) length, which agrees with the C layout for every
well-formed packet. -/

structure TtsCreate where
  ts_name : List Nat
  fields : List (List Nat)
  deriving DecidableEq

structure TtsDelete where
  ts_name : List Nat
  deriving DecidableEq

/-- One point of an `TTS_ADDPOINTS` packet.  `ts_flags` is the raw flag byte:
bit 0 = `ts_sec_set`, bit 1 = `ts_nsec_set` (the C bit-fields are allocated
from the least significant bit up on the target ABI). -/
structure TtsPoint where
  ts_flags : Nat
  ts_sec : Nat
  ts_nsec : Nat
  values : List (List Nat × List Nat)
  deriving DecidableEq

structure TtsAddpoints where
  ts_name : List Nat
  points : List TtsPoint
  deriving DecidableEq

/-- `struct tts_query` of the old generation: `qbyte` is the raw flag byte.
Bit 0 = `mean`, bit 3 = `major_of`, bit 4 = `minor_of`; the old `mean_field`
bit is modelled at bit 5 (one of the reserved bits — its exact position is
not recoverable from `tts_protocol.c` alone, and both codec directions use
the same accessor, so every theorem below is insensitive to the choice). -/
structure TtsQuery where
  qbyte : Nat
  ts_name : List Nat
  mean_val : Nat
  mean_field : List Nat
  major_of : Nat
  minor_of : Nat
  deriving DecidableEq

structure TtsResult where
  rc : Nat
  ts_sec : Nat
  ts_nsec : Nat
  points : List (List Nat × List Nat)
  deriving DecidableEq

structure TtsQueryAck where
  results : List TtsResult
  deriving DecidableEq

structure TtsAck where
  rc : Nat
  deriving DecidableEq

/-- The `union` inside `struct tts_packet`; `empty` models the union being
left untouched (header bytes with no `switch` case). -/
inductive TtsBody where
  | create (c : TtsCreate)
  | drop (d : TtsDelete)
  | addpoints (a : TtsAddpoints)
  | query (q : TtsQuery)
  | queryAck (qa : TtsQueryAck)
  | ack (a : TtsAck)
  | empty
  deriving DecidableEq

structure TtsPacket where
  header : Nat
  body : TtsBody
  deriving DecidableEq

/-- Opcode values (`TTS_CREATE` … `TTS_ACK`). -/
def TTS_CREATE : Nat := 0

def TTS_DELETE : Nat := 1

def TTS_ADDPOINTS : Nat := 2

def TTS_QUERY : Nat := 3

def TTS_QUERY_RESPONSE : Nat := 4

def TTS_ACK : Nat := 5

/-- Status codes. -/
def TTS_OK : Nat := 0

def TTS_ENOTS : Nat := 1

/-! ### Encoders (`pack_tts_*`)

Each encoder returns exactly the list of bytes the C function writes, in
order.  The u32 length field is back-patched through a saved pointer in C;
here it is emitted in place with the same value the C code computes. -/

/-- Body bytes of a CREATE packet: name length (`uint8_t` field), name bytes,
then `u16`-length-prefixed fields. -/
def createBody (c : TtsCreate) : List Nat :=
  c.ts_name.length % 2 ^ 8 :: c.ts_name ++
    c.fields.flatMap (fun f => packi16 f.length ++ f)

def pack_tts_create (c : TtsCreate) : List Nat :=
  packi32 (createBody c).length ++ createBody c

/-- DELETE: the C code computes the length field from the `uint8_t`
`ts_name_len` struct field (hence the `% 2 ^ 8`). -/
def pack_tts_delete (d : TtsDelete) : List Nat :=
  packi32 (1 + d.ts_name.length % 2 ^ 8) ++
    (d.ts_name.length % 2 ^ 8 :: d.ts_name)

def pointBody (p : TtsPoint) : List Nat :=
  p.ts_flags % 2 ^ 8 ::
    ((if p.ts_flags.testBit 0 then packi64 p.ts_sec else []) ++
     (if p.ts_flags.testBit 1 then packi64 p.ts_nsec else []) ++
     packi16 p.values.length ++
     p.values.flatMap (fun fv => packi16 fv.1.length ++ fv.1 ++ packi16 fv.2.length ++ fv.2))

def addpointsBody (a : TtsAddpoints) : List Nat :=
  a.ts_name.length % 2 ^ 8 :: a.ts_name ++ a.points.flatMap pointBody

def pack_tts_addpoints (a : TtsAddpoints) : List Nat :=
  packi32 (addpointsBody a).length ++ addpointsBody a

def queryBody (q : TtsQuery) : List Nat :=
  q.qbyte % 2 ^ 8 :: q.ts_name.length % 2 ^ 8 :: q.ts_name ++
    (if q.qbyte.testBit 0 then
       packi64 q.mean_val ++
         (if q.qbyte.testBit 5 then packi16 q.mean_field.length ++ q.mean_field else [])
     else []) ++
    (if q.qbyte.testBit 3 then packi64 q.major_of else []) ++
    (if q.qbyte.testBit 4 then packi64 q.minor_of else [])

def pack_tts_query (q : TtsQuery) : List Nat :=
  packi32 (queryBody q).length ++ queryBody q

/-- `pack_tts_packet`: writes the header byte, then switches on the header
byte.  Response opcodes (`TTS_QUERY_RESPONSE`, `TTS_ACK`) have no case: for
them only the header byte is written (the four length bytes in the output
buffer are never stored). -/
def pack_tts_packet (p : TtsPacket) : List Nat :=
  p.header % 2 ^ 8 ::
    (match p.header, p.body with
     | 0, .create c => pack_tts_create c
     | 1, .drop d => pack_tts_delete d
     | 2, .addpoints a => pack_tts_addpoints a
     | 3, .query q => pack_tts_query q
     | _, _ => [])

/-! ### Decoders (`unpack_tts_*`)

The C decoders consume bytes through an advancing pointer while decrementing
a `size_t` remaining-length counter `len`; the loops run while `len > 0`.
`len` is a `size_t`, so a subtraction larger than `len` wraps (`wsub`).
Loops driven by `len` carry explicit fuel (initialised to `len`): in any
decode where the declared length is consistent every iteration consumes at
least one unit of `len`, so the fuel is never exhausted there.  Reads past
the end of the received buffer give `0`. -/

/-- Field loop of `unpack_tts_create` (`for (i = 0; len > 0; ++i)`). -/
def unpackCreateFields : Nat → List Nat → Nat → List (List Nat)
  | _, _, 0 => []
  | 0, _, _ + 1 => []
  | fuel + 1, buf, len + 1 =>
    let (fl, r) := unpacku16 buf
    let (f, r') := unpack_bytes fl r
    f :: unpackCreateFields fuel r' (wsub (len + 1) (2 + fl))

def unpack_tts_create (buf : List Nat) (len : Nat) : TtsCreate :=
  let (nl, r) := unpacku8 buf
  let (name, r') := unpack_bytes nl r
  let len' := wsub len (1 + nl)
  { ts_name := name, fields := unpackCreateFields len' r' len' }

def unpack_tts_delete (buf : List Nat) : TtsDelete :=
  let (nl, r) := unpacku8 buf
  { ts_name := (unpack_bytes nl r).1 }

/-- The `(field, value)` pair loop of one ADDPOINTS point; returns the pairs,
the rest of the buffer and the updated remaining length. -/
def unpackPairs : Nat → List Nat → Nat → List (List Nat × List Nat) × List Nat × Nat
  | 0, buf, len => ([], buf, len)
  | n + 1, buf, len =>
    let (fl, r) := unpacku16 buf
    let (f, r') := unpack_bytes fl r
    let (vl, r'') := unpacku16 r'
    let (v, r''') := unpack_bytes vl r''
    let (ps, rest, len') := unpackPairs n r''' (wsub len (2 * 2 + fl + vl))
    ((f, v) :: ps, rest, len')

/-- Point loop of `unpack_tts_addpoints`. -/
def unpackPoints : Nat → List Nat → Nat → List TtsPoint
  | _, _, 0 => []
  | 0, _, _ + 1 => []
  | fuel + 1, buf, len + 1 =>
    let (fb, r) := unpacku8 buf
    let len1 := wsub (len + 1) 1
    let (sec, r', len2) :=
      if fb.testBit 0 then
        let (s, r') := unpacku64 r
        (s, r', wsub len1 8)
      else (0, r, len1)
    let (nsec, r'', len3) :=
      if fb.testBit 1 then
        let (s, r'') := unpacku64 r'
        (s, r'', wsub len2 8)
      else (0, r', len2)
    let (vl, r''') := unpacku16 r''
    let len4 := wsub len3 2
    let (values, rest, len5) := unpackPairs vl r''' len4
    { ts_flags := fb, ts_sec := sec, ts_nsec := nsec, values := values } ::
      unpackPoints fuel rest len5

def unpack_tts_addpoints (buf : List Nat) (len : Nat) : TtsAddpoints :=
  let (nl, r) := unpacku8 buf
  let (name, r') := unpack_bytes nl r
  let len' := wsub len (1 + nl)
  { ts_name := name, points := unpackPoints len' r' len' }

def unpack_tts_query (buf : List Nat) : TtsQuery :=
  let (qb, r) := unpacku8 buf
  let (nl, r') := unpacku8 r
  let (name, r'') := unpack_bytes nl r'
  let (mv, mf, r3) :=
    if qb.testBit 0 then
      let (m, ra) := unpacku64 r''
      if qb.testBit 5 then
        let (fl, rb) := unpacku16 ra
        let (f, rc) := unpack_bytes fl rb
        (m, f, rc)
      else (m, [], ra)
    else (0, [], r'')
  let (maj, r4) := if qb.testBit 3 then unpacku64 r3 else (0, r3)
  let (mnr, _) := if qb.testBit 4 then unpacku64 r4 else (0, r4)
  { qbyte := qb, ts_name := name, mean_val := mv, mean_field := mf,
    major_of := maj, minor_of := mnr }

/-- Result loop of `unpack_tts_query_response` (consumes `BQQH` then the
pairs, 19 + pair bytes of `len` per result). -/
def unpackResults : Nat → List Nat → Nat → List TtsResult
  | _, _, 0 => []
  | 0, _, _ + 1 => []
  | fuel + 1, buf, len + 1 =>
    let (rc, r) := unpacku8 buf
    let (sec, r') := unpacku64 r
    let (nsec, r'') := unpacku64 r'
    let (rl, r''') := unpacku16 r''
    let len1 := wsub (len + 1) (1 + 2 + 8 * 2)
    let (ps, rest, len2) := unpackPairs rl r''' len1
    { rc := rc, ts_sec := sec, ts_nsec := nsec, points := ps } ::
      unpackResults fuel rest len2

def unpack_tts_query_response (buf : List Nat) (len : Nat) : TtsQueryAck :=
  { results := unpackResults len buf len }

def unpack_tts_ack (buf : List Nat) : TtsAck :=
  { rc := (unpacku8 buf).1 }

/-- `unpack_tts_packet`: reads the header byte and the u32 length, then
dispatches on the header byte.  It has no failure path: every input buffer
decodes to a packet. -/
def unpack_tts_packet (buf : List Nat) : TtsPacket :=
  let (h, r) := unpacku8 buf
  let (len, r') := unpacku32 r
  { header := h,
    body :=
      match h with
      | 0 => .create (unpack_tts_create r' len)
      | 1 => .drop (unpack_tts_delete r')
      | 2 => .addpoints (unpack_tts_addpoints r' len)
      | 3 => .query (unpack_tts_query r')
      | 4 => .queryAck (unpack_tts_query_response r' len)
      | 5 => .ack (unpack_tts_ack r')
      | _ => .empty }

/-! ### Well-formed packets

A packet is well-formed when its struct fields are consistent with the C
types (`uint8_t` lengths, `uint16_t` lengths, `uint64_t` timestamps), its
byte strings are NUL-free C strings (the encoder measures them with
`strlen`), fields gated by a clear flag bit hold the zero the decoder's
`memset` would leave there, and the encoded body fits the `u32` length
field. -/

/-- Bytes of a C string field: non-NUL `uint8_t` values. -/
abbrev WfStr (l : List Nat) : Prop := ∀ b ∈ l, 0 < b ∧ b < 2 ^ 8

abbrev WfPair (fv : List Nat × List Nat) : Prop :=
  WfStr fv.1 ∧ fv.1.length ≤ 2 ^ 16 - 1 ∧ WfStr fv.2 ∧ fv.2.length ≤ 2 ^ 16 - 1

abbrev WfPoint (pt : TtsPoint) : Prop :=
  pt.ts_flags < 2 ^ 8 ∧
  (¬ pt.ts_flags.testBit 0 → pt.ts_sec = 0) ∧ pt.ts_sec < 2 ^ 64 ∧
  (¬ pt.ts_flags.testBit 1 → pt.ts_nsec = 0) ∧ pt.ts_nsec < 2 ^ 64 ∧
  pt.values.length ≤ 2 ^ 16 - 1 ∧ ∀ fv ∈ pt.values, WfPair fv

abbrev WfResult (res : TtsResult) : Prop :=
  res.rc < 2 ^ 8 ∧ res.ts_sec < 2 ^ 64 ∧ res.ts_nsec < 2 ^ 64 ∧
  res.points.length ≤ 2 ^ 16 - 1 ∧ ∀ fv ∈ res.points, WfPair fv

abbrev WfPacket (p : TtsPacket) : Prop :=
  p.header < 2 ^ 8 ∧
  match p.header, p.body with
  | 0, .create c =>
      WfStr c.ts_name ∧ c.ts_name.length ≤ 2 ^ 8 - 1 ∧
      (∀ f ∈ c.fields, WfStr f ∧ f.length ≤ 2 ^ 16 - 1) ∧
      (createBody c).length < 2 ^ 32
  | 1, .drop d => WfStr d.ts_name ∧ d.ts_name.length ≤ 2 ^ 8 - 1
  | 2, .addpoints a =>
      WfStr a.ts_name ∧ a.ts_name.length ≤ 2 ^ 8 - 1 ∧
      (∀ pt ∈ a.points, WfPoint pt) ∧ (addpointsBody a).length < 2 ^ 32
  | 3, .query q =>
      q.qbyte < 2 ^ 8 ∧ WfStr q.ts_name ∧ q.ts_name.length ≤ 2 ^ 8 - 1 ∧
      q.mean_val < 2 ^ 64 ∧ q.major_of < 2 ^ 64 ∧ q.minor_of < 2 ^ 64 ∧
      (¬ q.qbyte.testBit 0 → q.mean_val = 0) ∧
      (¬ (q.qbyte.testBit 0 ∧ q.qbyte.testBit 5) → q.mean_field = []) ∧
      WfStr q.mean_field ∧ q.mean_field.length ≤ 2 ^ 16 - 1 ∧
      (¬ q.qbyte.testBit 3 → q.major_of = 0) ∧
      (¬ q.qbyte.testBit 4 → q.minor_of = 0)
  | 4, .queryAck qa => ∀ res ∈ qa.results, WfResult res
  | 5, .ack a => a.rc < 2 ^ 8
  | _, _ => False

/-! Sizes of encoded fragments, used to track the remaining-length counter. -/

def fieldsSize (fields : List (List Nat)) : Nat :=
  (fields.map (fun f => 2 + f.length)).sum

def pairsSize (ps : List (List Nat × List Nat)) : Nat :=
  (ps.map (fun fv => 2 * 2 + fv.1.length + fv.2.length)).sum

def pointSize (pt : TtsPoint) : Nat :=
  1 + (if pt.ts_flags.testBit 0 then 8 else 0) +
    (if pt.ts_flags.testBit 1 then 8 else 0) + 2 + pairsSize pt.values

def pointsSize (pts : List TtsPoint) : Nat := (pts.map pointSize).sum

/-! ### IEEE-754 binary64 rounding model

`tts_handlers.c` computes timestamps and window steps in `double` arithmetic
(`ts_sec * 1e9 + ts_nsec` and `ts + window * 1e6` — `1e9`/`1e6` are `double`
literals, so the `uint64_t` operands are converted to `double`, combined, and
truncated back).  `rnd` below is exact round-to-nearest-even to 53 bits of
significand for a nonnegative rational (the exponent range of binary64 is
never approached by the values the server computes, and no negative value
reaches these expressions, so neither is modelled). -/

/-- Fuel-driven floor of `log₂` (kernel-computable). -/
def nlog2Aux : Nat → Nat → Nat
  | 0, _ => 0
  | fuel + 1, n => if 2 ≤ n then nlog2Aux fuel (n / 2) + 1 else 0

def nlog2 (n : Nat) : Nat := nlog2Aux n n

/-- Round half to even of a rational to an integer. -/
def rhe (r : ℚ) : ℤ :=
  let fl := ⌊r⌋
  let fr := r - fl
  if fr < 1 / 2 then fl
  else if 1 / 2 < fr then fl + 1
  else if 2 ∣ fl then fl else fl + 1

/-- `⌊log₂ q⌋` for a positive rational. -/
def flog2 (q : ℚ) : ℤ :=
  let c : ℤ := (nlog2 q.num.toNat : ℤ) - (nlog2 q.den : ℤ)
  if (2 : ℚ) ^ c ≤ q then c else c - 1

/-- Round a nonnegative rational to the nearest binary64 value
(round half to even, 53-bit significand). -/
def rnd (q : ℚ) : ℚ :=
  if q ≤ 0 then 0
  else
    let e : ℤ := flog2 q - 52
    (rhe (q * 2 ^ (-e)) : ℚ) * 2 ^ e

/-- Conversion of a nonnegative `double` value to `unsigned long long`:
truncation toward zero (reduced mod `2^64`; the conversion is UB out of
range, which none of the verified runs reach). -/
def toU64 (q : ℚ) : Nat := ⌊q⌋.toNat % 2 ^ 64

/-- The timestamp `handle_tts_addpoints` appends for given (already
flag-resolved) seconds/nanoseconds components:
`timestamp = ts_sec * 1e9 + ts_nsec` evaluated in `double` and stored into an
`unsigned long long`. -/
def cTimestamp (ts_sec ts_nsec : Nat) : Nat :=
  toU64 (rnd (rnd ((rnd (ts_sec : ℚ)) * 10 ^ 9) + rnd (ts_nsec : ℚ)))

/-- The per-window bound `step = ts[i] + window * 1e6` of
`handle_tts_query_mean`, evaluated in `double` and stored into an
`unsigned long long`. -/
def cStep (t w : Nat) : Nat :=
  toU64 (rnd (rnd (t : ℚ) + rnd (rnd (w : ℚ) * 10 ^ 6)))

/-! ### Ordered vector binary search (`tts_vector.h`, `TTS_VECTOR_BINSEARCH`)

The vector's `data` array is a `List Nat`; `TTS_VECTOR_AT` inside the
guarded loops below is `getD` (the loop guards keep those reads in bounds in
every run the theorems discuss).  `right = middle - 1` is a `size_t`
subtraction and therefore wraps (`wsub`).  The loop carries fuel (the C loop
has no iteration bound of its own); `n + 1` is enough for every run whose
interval shrinks, which the correctness lemmas prove. -/

def binsearchLoop (s : List Nat) (t : Nat) : Nat → Nat → Nat → Nat
  | 0, left, _ => left
  | fuel + 1, left, right =>
    if left ≤ right then
      let middle := (left + right) / 2
      let v := s.getD middle 0
      if v < t then binsearchLoop s t fuel (middle + 1) right
      else if v > t then binsearchLoop s t fuel left (wsub middle 1)
      else middle
    else left

/-- `TTS_VECTOR_BINSEARCH`: fast path `data[0] ≥ target → 0`; fast path
`data[size-1] < target → size-1`; otherwise binary search, returning the
found index or (not found) the exit value of `left`. -/
def binsearch (s : List Nat) (t : Nat) : Nat :=
  if s.getD 0 0 ≥ t then 0
  else if s.getD (s.length - 1) 0 < t then s.length - 1
  else binsearchLoop s t (s.length + 1) 0 (s.length - 1)

/-! ### Range resolution (`get_range_indexes` in `tts_handlers.c`) -/

/-- `for (i = lo0 - 1; i > 0 && ts[i] >= major_of; --i) --lo;` — the
`i + 1` pattern encodes the loop's `i > 0` guard (at `i = 0` the loop
stops without looking at the element). -/
def expandLo (s : List Nat) (major : Nat) : Nat → Nat → Nat
  | 0, lo => lo
  | i + 1, lo =>
    if major ≤ s.getD (i + 1) 0 then expandLo s major i (lo - 1) else lo

/-- `for (i = hi0 + 1; i < size && ts[i] <= minor_of; ++i) ++hi;` — the
loop runs at most `size` iterations (it stops at `i = size`), which the
fuel argument (instantiated with `size`) makes structural. -/
def expandHi (s : List Nat) (minor : Nat) : Nat → Nat → Nat → Nat
  | 0, _, hi => hi
  | fuel + 1, i, hi =>
    if i < s.length ∧ s.getD i 0 ≤ minor then expandHi s minor fuel (i + 1) (hi + 1)
    else hi

/-- `get_range_indexes(ts, minor_of, major_of, &lo_idx, &hi_idx)`: the first
binary search is on `major_of` (lower bound), the second on `minor_of`,
then `--*hi_idx` (a `size_t` decrement, wrapping when the search returned
0), and the neighbour-expansion loops run only when
`lo_idx > 0 && hi_idx < size`. -/
def get_range_indexes (s : List Nat) (minor_of major_of : Nat) : Nat × Nat :=
  let lo0 := binsearch s major_of
  let hi0 := wsub (binsearch s minor_of) 1
  if 0 < lo0 ∧ hi0 < s.length then
    (expandLo s major_of (lo0 - 1) lo0, expandHi s minor_of s.length (hi0 + 1) hi0)
  else (lo0, hi0)

/-! ### In-memory engine data model (`tts.h`, `tts_handlers.c`)

`long double` sample values are modelled as exact rationals.  The tag index
(`struct tts_tag`, a two-level string map holding record pointers) is
modelled as a two-level association list holding the record values; hash
iteration order is not observable through any verified property. -/

structure TtsRecord where
  index : Nat
  value : ℚ
  labels : List (List Nat × List Nat)
  deriving DecidableEq

structure Timeseries where
  retention : Nat
  timestamps : List Nat
  columns : List TtsRecord
  tags : List (List Nat × List (List Nat × List TtsRecord))
  deriving DecidableEq

/-- The registry (`struct tts_database`): name → timeseries. -/
abbrev Db := List (List Nat × Timeseries)

def dbFind (db : Db) (name : List Nat) : Option Timeseries :=
  match db with
  | [] => none
  | (n, ts) :: rest => if n = name then some ts else dbFind rest name

def dbInsert (db : Db) (name : List Nat) (ts : Timeseries) : Db :=
  (name, ts) :: db

def dbUpdate (db : Db) (name : List Nat) (ts : Timeseries) : Db :=
  db.map (fun p => if p.1 = name then (name, ts) else p)

def dbRemove (db : Db) (name : List Nat) : Db :=
  db.filter (fun p => decide (p.1 ≠ name))

def TTS_TIMESERIES_INIT (name : List Nat) (retention : Nat) : Timeseries :=
  { retention := retention, timestamps := [], columns := [], tags := [] }

/-- A decoded ADDPOINTS point as `tts_handlers.c` consumes it
(`tts_protocol.h` generation): flag bit 0 = `ts_sec_set`,
bit 1 = `ts_nsec_set`. -/
structure HPoint where
  flags : Nat
  ts_sec : Nat
  ts_nsec : Nat
  value : ℚ
  labels : List (List Nat × List Nat)
  deriving DecidableEq

/-- A decoded QUERY as `tts_handlers.c` consumes it: flag bit 0 = `mean`,
bit 1 = `first`, bit 2 = `last`, bit 3 = `major_of`, bit 4 = `minor_of`
(C bit-fields allocated LSB-first; `TTS_QUERY_ALL_TIMESERIES_AVG = 0x01`
confirms `mean` is bit 0). -/
structure HQuery where
  qbyte : Nat
  ts_name : List Nat
  mean_val : Nat
  major_of : Nat
  minor_of : Nat
  deriving DecidableEq

structure HRow where
  rc : Nat
  ts_sec : Nat
  ts_nsec : Nat
  value : ℚ
  labels : List (List Nat × List Nat)
  deriving DecidableEq

inductive HResponse where
  | ack (status : Nat)
  | queryResponse (results : List HRow)
  deriving DecidableEq

inductive HRequest where
  | create (ts_name : List Nat) (retention : Nat)
  | drop (ts_name : List Nat)
  | addpoints (ts_name : List Nat) (points : List HPoint)
  | query (q : HQuery)
  deriving DecidableEq

/-- One label's tag-index update inside `handle_tts_addpoints`. -/
def tagAdd (tags : List (List Nat × List (List Nat × List TtsRecord)))
    (label lvalue : List Nat) (record : TtsRecord) :
    List (List Nat × List (List Nat × List TtsRecord)) :=
  match tags.lookup label with
  | some sub =>
    match sub.lookup lvalue with
    | some col =>
      tags.map (fun p =>
        if p.1 = label then
          (label, p.2.map (fun q => if q.1 = lvalue then (lvalue, col ++ [record]) else q))
        else p)
    | none =>
      tags.map (fun p =>
        if p.1 = label then (label, p.2 ++ [(lvalue, [record])]) else p)
  | none => tags ++ [(label, [(lvalue, [record])])]

/-- Appending one point inside the `handle_tts_addpoints` loop: fill missing
timestamp components from the wall clock, compute the (double-arithmetic)
timestamp, append it, build the record (its `index` is the vector size
*after* the timestamp append), update the tag index, append the record. -/
def applyPoint (clock : Nat × Nat) (ts : Timeseries) (p : HPoint) : Timeseries :=
  let sec := if p.flags.testBit 0 then p.ts_sec else clock.1
  let nsec := if p.flags.testBit 1 then p.ts_nsec else clock.2
  let t := cTimestamp sec nsec
  let timestamps' := ts.timestamps ++ [t]
  let record : TtsRecord := ⟨timestamps'.length, p.value, p.labels⟩
  { retention := ts.retention,
    timestamps := timestamps',
    columns := ts.columns ++ [record],
    tags := p.labels.foldl (fun tg fv => tagAdd tg fv.1 fv.2 record) ts.tags }

def handle_tts_create (db : Db) (name : List Nat) (retention : Nat) :
    Db × HResponse :=
  match dbFind db name with
  | some _ => (db, .ack TTS_ENOTS)
  | none => (dbInsert db name (TTS_TIMESERIES_INIT name retention), .ack TTS_OK)

def handle_tts_delete (db : Db) (name : List Nat) : Db × HResponse :=
  match dbFind db name with
  | none => (db, .ack TTS_ENOTS)
  | some _ => (dbRemove db name, .ack TTS_OK)

def handle_tts_addpoints (db : Db) (name : List Nat) (points : List HPoint)
    (clock : Nat × Nat) : Db × HResponse :=
  match dbFind db name with
  | some ts =>
    (dbUpdate db name (points.foldl (applyPoint clock) ts), .ack TTS_OK)
  | none =>
    (dbInsert db name (points.foldl (applyPoint clock)
      (TTS_TIMESERIES_INIT name 0)), .ack TTS_OK)

/-- `handle_tts_query_single`: both vector reads return `Option`; `none`
models the out-of-bounds `TTS_VECTOR_AT`. -/
def handle_tts_query_single (ts : Timeseries) (t_idx : Nat) : Option HRow :=
  match ts.timestamps.get? t_idx, ts.columns.get? t_idx with
  | some t, some record =>
    some ⟨TTS_OK, t / 10 ^ 9, t % 10 ^ 9, record.value, record.labels⟩
  | _, _ => none

def handle_tts_query_all (ts : Timeseries) : Option (List HRow) :=
  (List.range ts.timestamps.length).mapM (handle_tts_query_single ts)

def handle_tts_query_one (ts : Timeseries) (idx : Nat) : Option (List HRow) :=
  (handle_tts_query_single ts idx).map ([·])

def handle_tts_query_range (ts : Timeseries) (minor_of major_of : Nat) :
    Option (List HRow) :=
  let li := get_range_indexes ts.timestamps minor_of major_of
  let range := (wsub li.2 li.1 + 1) % 2 ^ 64
  (List.range range).mapM (fun i => handle_tts_query_single ts (i + li.1))

/-- The window-accumulation loop shared by `handle_tts_query_mean` and
`handle_tts_query_mean_r`
(`for (; TTS_VECTOR_AT(ts->timestamps, i) <= step; ++i) { … }`):
scan forward from `i` while `timestamps[i] ≤ step`, accumulating the sum and
count (and the last consumed timestamp `t`, which only
`handle_tts_query_mean` uses).  The `none` result models the loop condition
evaluating `TTS_VECTOR_AT` out of range, which happens exactly when the scan
runs off the end of the vector (index = length). -/
def meanScan (T : Timeseries) (step : Nat) (i : Nat) (t : Nat) (avg : ℚ)
    (j : Nat) : Option (Nat × ℚ × Nat × Nat) :=
  match h : T.timestamps.get? i with
  | none => none
  | some ti =>
    if ti ≤ step then
      match T.columns.get? i with
      | none => none
      | some record => meanScan T step (i + 1) ti (avg + record.value) (j + 1)
    else some (t, avg, j, i)
  termination_by T.timestamps.length - i
  decreasing_by
    have : i < T.timestamps.length := List.get?_eq_some.mp h |>.1
    omega

/-- Outer window loop of `handle_tts_query_mean` (`while (i < hi)`).  The C
loop has no bound of its own; the fuel argument only cuts runs in which an
inner scan makes no progress (only possible when the rounded `step` ends up
below `timestamps[i]`, which the theorems' side conditions exclude — in C
such a run never terminates). -/
def meanOuter (T : Timeseries) (w : Nat) (hi : Nat) :
    Nat → Nat → List HRow → List HRow × Bool
  | 0, _, rows => (rows.reverse, false)
  | fuel + 1, i, rows =>
    if i < hi then
      let step := cStep (T.timestamps.getD i 0) w
      match meanScan T step i 0 0 0 with
      | none => (rows.reverse, true)
      | some (t, avg, j, i') =>
        meanOuter T w hi fuel i'
          (⟨TTS_OK, t / 10 ^ 9, t % 10 ^ 9, avg / (j : ℚ), []⟩ :: rows)
    else (rows.reverse, false)

/-- `handle_tts_query_mean(ts, p, lo, hi, window, buf)`: rows plus a flag
recording whether the accumulation loop performed an out-of-bounds
`TTS_VECTOR_AT` (in which case C behaviour is undefined and the rows after
that point are not modelled). -/
def handle_tts_query_mean (T : Timeseries) (lo hi w : Nat) :
    List HRow × Bool :=
  meanOuter T w hi (hi + 1) lo []

/-- `window *= 1e6` of `handle_tts_query_mean_r` (double multiply, stored
back into `unsigned long long`). -/
def wmul1e6 (w : Nat) : Nat := toU64 (rnd (rnd (w : ℚ) * 10 ^ 6))

/-- Warm-up loop of `handle_tts_query_mean_r`
(`while (ts[lo] > start) { if (start + window > ts[lo]) break; start += window; }`);
fuel cuts the infinite run `window = 0`. -/
def meanRWarm (tlo window : Nat) : Nat → Nat → Nat
  | 0, start => start
  | fuel + 1, start =>
    if tlo > start then
      if start + window > tlo then start
      else meanRWarm tlo window fuel ((start + window) % 2 ^ 64)
    else start

/-- Outer loop of `handle_tts_query_mean_r`: the step advances by the scaled
window each iteration and stamps the row. -/
def meanROuter (T : Timeseries) (window : Nat) (hi : Nat) :
    Nat → Nat → Nat → List HRow → List HRow × Bool
  | 0, _, _, rows => (rows.reverse, false)
  | fuel + 1, i, step, rows =>
    if i < hi then
      let step' := (step + window) % 2 ^ 64
      match meanScan T step' i 0 0 0 with
      | none => (rows.reverse, true)
      | some (_, avg, j, i') =>
        meanROuter T window hi fuel i' step'
          (⟨TTS_OK, step' / 10 ^ 9, step' % 10 ^ 9, avg / (j : ℚ), []⟩ :: rows)
    else (rows.reverse, false)

def handle_tts_query_mean_r (T : Timeseries) (lo hi start w : Nat) :
    Option (List HRow × Bool) :=
  let window := wmul1e6 w
  match T.timestamps.get? lo with
  | none => none
  | some tlo =>
    some (meanROuter T window hi (hi + 1) lo (meanRWarm tlo window (tlo + 1) start) [])

/-- `handle_tts_query`: `none` models a run that performs an out-of-bounds
vector access (undefined behaviour in C). -/
def handle_tts_query (db : Db) (q : HQuery) : Option HResponse :=
  match dbFind db q.ts_name with
  | none => some (.ack TTS_ENOTS)
  | some T =>
    if q.qbyte = 0 ∨ q.qbyte = 1 then
      if ¬ q.qbyte.testBit 0 then (handle_tts_query_all T).map .queryResponse
      else
        let ro := handle_tts_query_mean T 0 T.timestamps.length q.mean_val
        if ro.2 then none else some (.queryResponse ro.1)
    else
      let ts_size := wsub T.timestamps.length 1
      match T.timestamps.get? 0, T.timestamps.get? ts_size with
      | some t0, some tl =>
        if q.qbyte.testBit 1 then (handle_tts_query_one T 0).map .queryResponse
        else if q.qbyte.testBit 2 then
          (handle_tts_query_one T (T.timestamps.length - 1)).map .queryResponse
        else
          let major := if q.qbyte.testBit 3 then q.major_of else t0
          let minor := if q.qbyte.testBit 4 then q.minor_of else tl
          if ¬ q.qbyte.testBit 0 then
            (handle_tts_query_range T minor major).map .queryResponse
          else
            let li := get_range_indexes T.timestamps minor major
            match handle_tts_query_mean_r T li.1 li.2 major q.mean_val with
            | none => none
            | some ro => if ro.2 then none else some (.queryResponse ro.1)
      | _, _ => none

/-- The dispatcher `tts_handle_packet`: opcode → handler.  The wall clock
(`clock_gettime`) is a parameter. -/
def tts_handle_packet (req : HRequest) (db : Db) (clock : Nat × Nat) :
    Db × Option HResponse :=
  match req with
  | .create name r =>
    let dr := handle_tts_create db name r
    (dr.1, some dr.2)
  | .drop name =>
    let dr := handle_tts_delete db name
    (dr.1, some dr.2)
  | .addpoints name pts =>
    let dr := handle_tts_addpoints db name pts clock
    (dr.1, some dr.2)
  | .query q => (db, handle_tts_query db q)

/-- Invariant T1 (positional pairing): every registered timeseries has
equally long timestamp and record vectors. -/
abbrev DbInv (db : Db) : Prop :=
  ∀ p ∈ db, p.2.timestamps.length = p.2.columns.length

/-- The per-index (timestamp, value) pairs of a timeseries, for stating what
the mean loop consumes. -/
def meanPts (T : Timeseries) : List (Nat × ℚ) :=
  T.timestamps.zip (T.columns.map TtsRecord.value)

/-- Characterization of the grouping `handle_tts_query_mean` actually
performs on the `(timestamp, value)` pairs: each group is re-anchored at the
first not-yet-consumed sample `p` and greedily takes every following sample
with timestamp at most `p.1 + w * 10^6`; the emitted row carries the *last
consumed sample's* timestamp (split into seconds/nanoseconds) and the
group's arithmetic mean.  One fuel unit is spent per group. -/
def greedyRows (w : Nat) : Nat → List (Nat × ℚ) → List HRow
  | 0, _ => []
  | _ + 1, [] => []
  | fuel + 1, p :: ps =>
    ⟨TTS_OK,
      ((((p :: ps).takeWhile (fun q => decide (q.1 ≤ p.1 + w * 10 ^ 6))).map
          Prod.fst).getLastD 0) / 10 ^ 9,
      ((((p :: ps).takeWhile (fun q => decide (q.1 ≤ p.1 + w * 10 ^ 6))).map
          Prod.fst).getLastD 0) % 10 ^ 9,
      (((p :: ps).takeWhile (fun q => decide (q.1 ≤ p.1 + w * 10 ^ 6))).map
          Prod.snd).sum /
        ((((p :: ps).takeWhile (fun q => decide (q.1 ≤ p.1 + w * 10 ^ 6))).length : ℚ)),
      []⟩ ::
      greedyRows w fuel ((p :: ps).dropWhile (fun q => decide (q.1 ≤ p.1 + w * 10 ^ 6)))

/-- Modelled from the spec's words (§4.5), for comparison with the code: the
span is partitioned into consecutive fixed windows of `W` nanoseconds
starting at `s` (the first sample's timestamp); window `k` covers
`[s + k*W, s + (k+1)*W)`; each non-empty window yields one row stamped with
the window's end boundary and the window's arithmetic mean; empty windows
yield no row.  `K` bounds the number of windows considered. -/
def specFixedWindowRows (W s K : Nat) (pts : List (Nat × ℚ)) : List HRow :=
  (List.range K).filterMap (fun k =>
    let g := pts.filter (fun q => decide (s + k * W ≤ q.1) && decide (q.1 < s + (k + 1) * W))
    if g.isEmpty then none
    else some ⟨TTS_OK, (s + (k + 1) * W) / 10 ^ 9, (s + (k + 1) * W) % 10 ^ 9,
      (g.map Prod.snd).sum / (g.length : ℚ), []⟩)

theorem wsub_eq_sub {a b : Nat} (hba : b ≤ a) (ha : a < 2 ^ 64) :
    wsub a b = a - b := by
  have hb : b % 2 ^ 64 = b := Nat.mod_eq_of_lt (lt_of_le_of_lt hba ha)
  simp only [wsub, hb]
  omega

theorem unpacku8_cons (b : Nat) (r : List Nat) : unpacku8 (b :: r) = (b, r) := rfl

theorem unpacku16_packi16 (v : Nat) (rest : List Nat) :
    unpacku16 (packi16 v ++ rest) = (v % 2 ^ 16, rest) := by
  simp only [packi16, unpacku16, unpacku8, List.cons_append, List.nil_append,
    Prod.mk.injEq]
  exact ⟨by omega, trivial⟩

theorem unpacku32_packi32 (v : Nat) (rest : List Nat) :
    unpacku32 (packi32 v ++ rest) = (v % 2 ^ 32, rest) := by
  simp only [packi32, unpacku32, unpacku16, unpacku8, List.cons_append, List.nil_append,
    Prod.mk.injEq]
  exact ⟨by omega, trivial⟩

theorem unpacku64_packi64 (v : Nat) (rest : List Nat) :
    unpacku64 (packi64 v ++ rest) = (v % 2 ^ 64, rest) := by
  simp only [packi64, unpacku64, unpacku32, unpacku16, unpacku8, List.cons_append,
    List.nil_append, Prod.mk.injEq]
  exact ⟨by omega, trivial⟩

theorem unpack_bytes_append (l rest : List Nat) :
    unpack_bytes l.length (l ++ rest) = (l, rest) := by
  induction l with
  | nil => rfl
  | cons b r ih => simp [unpack_bytes, ih]

theorem createBody_length (c : TtsCreate) :
    (createBody c).length = 1 + c.ts_name.length + fieldsSize c.fields := by
  simp only [createBody, fieldsSize, List.cons_append, List.length_cons,
    List.length_append]
  induction c.fields with
  | nil => simp; omega
  | cons f fs ih =>
    simp only [List.flatMap_cons, List.length_append, List.map_cons, List.sum_cons] at *
    simp only [packi16, List.length_append, List.length_cons, List.length_nil] at *
    omega

theorem pointBody_length (pt : TtsPoint) : (pointBody pt).length = pointSize pt := by
  simp only [pointBody, pointSize, pairsSize, List.length_cons, List.length_append]
  have h : (pt.values.flatMap
      (fun fv => packi16 fv.1.length ++ fv.1 ++ packi16 fv.2.length ++ fv.2)).length =
      (pt.values.map (fun fv => 2 * 2 + fv.1.length + fv.2.length)).sum := by
    induction pt.values with
    | nil => simp
    | cons fv fvs ih =>
      simp only [List.flatMap_cons, List.length_append, List.map_cons, List.sum_cons, ih]
      simp [packi16]
      omega
  rw [h]
  by_cases h0 : pt.ts_flags.testBit 0 <;> by_cases h1 : pt.ts_flags.testBit 1 <;>
    simp [h0, h1, packi16, packi64] <;> omega

/-! ### Decode-of-encode lemmas -/

theorem unpackCreateFields_encode (fields : List (List Nat)) (rest : List Nat)
    (fuel : Nat) (hf : ∀ f ∈ fields, f.length ≤ 2 ^ 16 - 1)
    (hfuel : fields.length ≤ fuel) (hsz : fieldsSize fields < 2 ^ 64) :
    unpackCreateFields fuel
      (fields.flatMap (fun f => packi16 f.length ++ f) ++ rest)
      (fieldsSize fields) = fields := by
  induction fields generalizing fuel rest with
  | nil => simp [fieldsSize, unpackCreateFields]
  | cons f fs ih =>
    have hsz' : fieldsSize (f :: fs) = 2 + f.length + fieldsSize fs := by
      simp [fieldsSize]
    obtain ⟨fu, rfl⟩ : ∃ fu, fuel = fu + 1 := ⟨fuel - 1, by simp at hfuel; omega⟩
    have hk : fieldsSize (f :: fs) = (1 + f.length + fieldsSize fs) + 1 := by omega
    rw [hk]
    simp only [unpackCreateFields, List.flatMap_cons, List.append_assoc]
    rw [unpacku16_packi16]
    have hfl : f.length % 2 ^ 16 = f.length :=
      Nat.mod_eq_of_lt (by have := hf f (by simp); omega)
    simp only [hfl, unpack_bytes_append]
    have hw : wsub ((1 + f.length + fieldsSize fs) + 1) (2 + f.length) = fieldsSize fs := by
      rw [wsub_eq_sub (by omega) (by omega)]; omega
    rw [hw]
    simp only [List.cons.injEq, true_and]
    apply ih
    · exact fun g hg => hf g (by simp [hg])
    · simp only [List.length_cons] at hfuel; omega
    · omega

theorem unpackPairs_encode (ps : List (List Nat × List Nat)) (rest : List Nat)
    (len : Nat) (hp : ∀ fv ∈ ps, WfPair fv)
    (hlen : pairsSize ps ≤ len) (hl64 : len < 2 ^ 64) :
    unpackPairs ps.length
      (ps.flatMap (fun fv => packi16 fv.1.length ++ fv.1 ++ packi16 fv.2.length ++ fv.2)
        ++ rest) len = (ps, rest, len - pairsSize ps) := by
  induction ps generalizing rest len with
  | nil => simp [pairsSize, unpackPairs]
  | cons fv fvs ih =>
    have hsz : pairsSize (fv :: fvs) = 2 * 2 + fv.1.length + fv.2.length + pairsSize fvs := by
      simp [pairsSize]
    obtain ⟨hw1, hl1, hw2, hl2⟩ := hp fv (by simp)
    simp only [List.length_cons, unpackPairs, List.flatMap_cons, List.append_assoc]
    rw [unpacku16_packi16]
    have hfl : fv.1.length % 2 ^ 16 = fv.1.length := Nat.mod_eq_of_lt (by omega)
    simp only [hfl, unpack_bytes_append]
    rw [unpacku16_packi16]
    have hvl : fv.2.length % 2 ^ 16 = fv.2.length := Nat.mod_eq_of_lt (by omega)
    simp only [hvl, unpack_bytes_append]
    have hwd : wsub len (2 * 2 + fv.1.length + fv.2.length) =
        len - (2 * 2 + fv.1.length + fv.2.length) := wsub_eq_sub (by omega) hl64
    rw [hwd]
    have ih' := ih rest (len - (2 * 2 + fv.1.length + fv.2.length))
      (fun g hg => hp g (by simp [hg])) (by omega) (by omega)
    simp only [List.append_assoc] at ih'
    rw [ih']
    simp only [Prod.mk.injEq, List.cons.injEq, Prod.mk.eta, true_and]
    omega

theorem unpackPoints_encode (pts : List TtsPoint) (rest : List Nat) (fuel : Nat)
    (hp : ∀ pt ∈ pts, WfPoint pt) (hfuel : pts.length ≤ fuel)
    (hsz : pointsSize pts < 2 ^ 64) :
    unpackPoints fuel (pts.flatMap pointBody ++ rest) (pointsSize pts) = pts := by
  induction pts generalizing fuel rest with
  | nil => simp [pointsSize, unpackPoints]
  | cons pt pts ih =>
    obtain ⟨flags, sec, nsec, values⟩ := pt
    obtain ⟨hfb, hs0, hs64, hn0, hn64, hvl, hvp⟩ :=
      hp ⟨flags, sec, nsec, values⟩ (by simp)
    have hfb : flags < 2 ^ 8 := hfb
    have hs0 : ¬ flags.testBit 0 → sec = 0 := hs0
    have hs64 : sec < 2 ^ 64 := hs64
    have hn0 : ¬ flags.testBit 1 → nsec = 0 := hn0
    have hn64 : nsec < 2 ^ 64 := hn64
    have hvl : values.length ≤ 2 ^ 16 - 1 := hvl
    have hvp : ∀ fv ∈ values, WfPair fv := hvp
    have hsz' : pointsSize (⟨flags, sec, nsec, values⟩ :: pts) =
        pointSize ⟨flags, sec, nsec, values⟩ + pointsSize pts := by
      simp [pointsSize]
    obtain ⟨fu, rfl⟩ : ∃ fu, fuel = fu + 1 := ⟨fuel - 1, by simp at hfuel; omega⟩
    have hfuel' : pts.length ≤ fu := by simp at hfuel; omega
    have hszs : pointsSize pts < 2 ^ 64 := by
      rw [hsz'] at hsz; omega
    have hprs : pairsSize values < 2 ^ 64 := by
      rw [hsz'] at hsz; simp [pointSize] at hsz; omega
    have hvlm : values.length % 2 ^ 16 = values.length := Nat.mod_eq_of_lt (by omega)
    have hfbm : flags % 2 ^ 8 = flags := Nat.mod_eq_of_lt hfb
    by_cases h0 : flags.testBit 0 <;> by_cases h1 : flags.testBit 1
    · -- both timestamp components present
      have hpsz : pointSize ⟨flags, sec, nsec, values⟩ = 19 + pairsSize values := by
        simp [pointSize, h0, h1]; try omega
      have hk : pointsSize (⟨flags, sec, nsec, values⟩ :: pts) =
          (18 + pairsSize values + pointsSize pts) + 1 := by omega
      rw [hk]
      simp only [unpackPoints, List.flatMap_cons, pointBody, h0, h1, if_true, if_false,
        eq_self_iff_true, Bool.false_eq_true, ite_true, ite_false, List.append_assoc, List.cons_append, List.nil_append]
      rw [unpacku8_cons, hfbm]
      rw [show wsub (18 + pairsSize values + pointsSize pts + 1) 1 =
        18 + pairsSize values + pointsSize pts from by
          rw [wsub_eq_sub (by omega) (by omega)]; try omega]
      simp only [h0, h1, if_true, if_false, eq_self_iff_true, Bool.false_eq_true, ite_true, ite_false, unpacku64_packi64]
      rw [show sec % 2 ^ 64 = sec from Nat.mod_eq_of_lt hs64]
      rw [show nsec % 2 ^ 64 = nsec from Nat.mod_eq_of_lt hn64]
      rw [show wsub (18 + pairsSize values + pointsSize pts) 8 =
        10 + pairsSize values + pointsSize pts from by
          rw [wsub_eq_sub (by omega) (by omega)]; try omega]
      rw [show wsub (10 + pairsSize values + pointsSize pts) 8 =
        2 + pairsSize values + pointsSize pts from by
          rw [wsub_eq_sub (by omega) (by omega)]; try omega]
      rw [unpacku16_packi16, hvlm]
      rw [show wsub (2 + pairsSize values + pointsSize pts) 2 =
        pairsSize values + pointsSize pts from by
          rw [wsub_eq_sub (by omega) (by omega)]; try omega]
      have hup := unpackPairs_encode values (pts.flatMap pointBody ++ rest)
        (pairsSize values + pointsSize pts) hvp (by omega) (by omega)
      simp only [List.append_assoc] at hup
      rw [hup]
      simp only [List.cons.injEq, true_and]
      rw [show pairsSize values + pointsSize pts - pairsSize values =
        pointsSize pts from by omega]
      first
      | exact ih rest fu (fun g hg => hp g (by simp [hg])) hfuel' hszs
      | exact ⟨rfl, ih rest fu (fun g hg => hp g (by simp [hg])) hfuel' hszs⟩
    · -- seconds present, nanoseconds absent
      have hnz : nsec = 0 := hn0 h1
      subst hnz
      have hpsz : pointSize ⟨flags, sec, 0, values⟩ = 11 + pairsSize values := by
        simp [pointSize, h0, h1]; try omega
      have hk : pointsSize (⟨flags, sec, 0, values⟩ :: pts) =
          (10 + pairsSize values + pointsSize pts) + 1 := by omega
      rw [hk]
      simp only [unpackPoints, List.flatMap_cons, pointBody, h0, h1, if_true, if_false,
        eq_self_iff_true, Bool.false_eq_true, ite_true, ite_false, List.append_assoc, List.cons_append, List.nil_append]
      rw [unpacku8_cons, hfbm]
      rw [show wsub (10 + pairsSize values + pointsSize pts + 1) 1 =
        10 + pairsSize values + pointsSize pts from by
          rw [wsub_eq_sub (by omega) (by omega)]; try omega]
      simp only [h0, h1, if_true, if_false, eq_self_iff_true, Bool.false_eq_true, ite_true, ite_false, unpacku64_packi64]
      rw [show sec % 2 ^ 64 = sec from Nat.mod_eq_of_lt hs64]
      rw [show wsub (10 + pairsSize values + pointsSize pts) 8 =
        2 + pairsSize values + pointsSize pts from by
          rw [wsub_eq_sub (by omega) (by omega)]; try omega]
      rw [unpacku16_packi16, hvlm]
      rw [show wsub (2 + pairsSize values + pointsSize pts) 2 =
        pairsSize values + pointsSize pts from by
          rw [wsub_eq_sub (by omega) (by omega)]; try omega]
      have hup := unpackPairs_encode values (pts.flatMap pointBody ++ rest)
        (pairsSize values + pointsSize pts) hvp (by omega) (by omega)
      simp only [List.append_assoc] at hup
      rw [hup]
      simp only [List.cons.injEq, true_and]
      rw [show pairsSize values + pointsSize pts - pairsSize values =
        pointsSize pts from by omega]
      first
      | exact ih rest fu (fun g hg => hp g (by simp [hg])) hfuel' hszs
      | exact ⟨rfl, ih rest fu (fun g hg => hp g (by simp [hg])) hfuel' hszs⟩
    · -- seconds absent, nanoseconds present
      have hsz0 : sec = 0 := hs0 h0
      subst hsz0
      have hpsz : pointSize ⟨flags, 0, nsec, values⟩ = 11 + pairsSize values := by
        simp [pointSize, h0, h1]; try omega
      have hk : pointsSize (⟨flags, 0, nsec, values⟩ :: pts) =
          (10 + pairsSize values + pointsSize pts) + 1 := by omega
      rw [hk]
      simp only [unpackPoints, List.flatMap_cons, pointBody, h0, h1, if_true, if_false,
        eq_self_iff_true, Bool.false_eq_true, ite_true, ite_false, List.append_assoc, List.cons_append, List.nil_append]
      rw [unpacku8_cons, hfbm]
      rw [show wsub (10 + pairsSize values + pointsSize pts + 1) 1 =
        10 + pairsSize values + pointsSize pts from by
          rw [wsub_eq_sub (by omega) (by omega)]; try omega]
      simp only [h0, h1, if_true, if_false, eq_self_iff_true, Bool.false_eq_true, ite_true, ite_false, unpacku64_packi64]
      rw [show nsec % 2 ^ 64 = nsec from Nat.mod_eq_of_lt hn64]
      rw [show wsub (10 + pairsSize values + pointsSize pts) 8 =
        2 + pairsSize values + pointsSize pts from by
          rw [wsub_eq_sub (by omega) (by omega)]; try omega]
      rw [unpacku16_packi16, hvlm]
      rw [show wsub (2 + pairsSize values + pointsSize pts) 2 =
        pairsSize values + pointsSize pts from by
          rw [wsub_eq_sub (by omega) (by omega)]; try omega]
      have hup := unpackPairs_encode values (pts.flatMap pointBody ++ rest)
        (pairsSize values + pointsSize pts) hvp (by omega) (by omega)
      simp only [List.append_assoc] at hup
      rw [hup]
      simp only [List.cons.injEq, true_and]
      rw [show pairsSize values + pointsSize pts - pairsSize values =
        pointsSize pts from by omega]
      first
      | exact ih rest fu (fun g hg => hp g (by simp [hg])) hfuel' hszs
      | exact ⟨rfl, ih rest fu (fun g hg => hp g (by simp [hg])) hfuel' hszs⟩
    · -- both absent: decoder leaves the zeroed fields
      have hsz0 : sec = 0 := hs0 h0
      have hnz : nsec = 0 := hn0 h1
      subst hsz0; subst hnz
      have hpsz : pointSize ⟨flags, 0, 0, values⟩ = 3 + pairsSize values := by
        simp [pointSize, h0, h1]; try omega
      have hk : pointsSize (⟨flags, 0, 0, values⟩ :: pts) =
          (2 + pairsSize values + pointsSize pts) + 1 := by omega
      rw [hk]
      simp only [unpackPoints, List.flatMap_cons, pointBody, h0, h1, if_true, if_false,
        eq_self_iff_true, Bool.false_eq_true, ite_true, ite_false, List.append_assoc, List.cons_append, List.nil_append]
      rw [unpacku8_cons, hfbm]
      rw [show wsub (2 + pairsSize values + pointsSize pts + 1) 1 =
        2 + pairsSize values + pointsSize pts from by
          rw [wsub_eq_sub (by omega) (by omega)]; try omega]
      simp only [h0, h1, if_true, if_false, eq_self_iff_true, Bool.false_eq_true, ite_true, ite_false]
      rw [unpacku16_packi16, hvlm]
      rw [show wsub (2 + pairsSize values + pointsSize pts) 2 =
        pairsSize values + pointsSize pts from by
          rw [wsub_eq_sub (by omega) (by omega)]; try omega]
      have hup := unpackPairs_encode values (pts.flatMap pointBody ++ rest)
        (pairsSize values + pointsSize pts) hvp (by omega) (by omega)
      simp only [List.append_assoc] at hup
      rw [hup]
      simp only [List.cons.injEq, true_and]
      rw [show pairsSize values + pointsSize pts - pairsSize values =
        pointsSize pts from by omega]
      first
      | exact ih rest fu (fun g hg => hp g (by simp [hg])) hfuel' hszs
      | exact ⟨rfl, ih rest fu (fun g hg => hp g (by simp [hg])) hfuel' hszs⟩

theorem length_packi16 (v : Nat) : (packi16 v).length = 2 := rfl

theorem flatMapFields_length (fields : List (List Nat)) :
    (fields.flatMap (fun f => packi16 f.length ++ f)).length = fieldsSize fields := by
  induction fields with
  | nil => simp [fieldsSize]
  | cons f fs ih =>
    simp only [List.flatMap_cons, List.length_append, ih, fieldsSize, List.map_cons,
      List.sum_cons, length_packi16]
    try omega

theorem flatMapPoints_length (pts : List TtsPoint) :
    (pts.flatMap pointBody).length = pointsSize pts := by
  induction pts with
  | nil => simp [pointsSize]
  | cons pt pts ih =>
    simp only [List.flatMap_cons, List.length_append, ih, pointsSize, List.map_cons,
      List.sum_cons, pointBody_length]

theorem fields_length_le_size (fields : List (List Nat)) :
    fields.length ≤ fieldsSize fields := by
  induction fields with
  | nil => simp [fieldsSize]
  | cons f fs ih => simp only [fieldsSize, List.map_cons, List.sum_cons,
      List.length_cons] at ih ⊢; omega

theorem points_length_le_size (pts : List TtsPoint) :
    pts.length ≤ pointsSize pts := by
  induction pts with
  | nil => simp [pointsSize]
  | cons pt pts ih =>
    have h1 : 1 ≤ pointSize pt := by simp [pointSize]; omega
    simp only [pointsSize, List.map_cons, List.sum_cons, List.length_cons] at ih ⊢
    omega

theorem unpack_pack_create (c : TtsCreate) (hn : WfStr c.ts_name)
    (hnl : c.ts_name.length ≤ 2 ^ 8 - 1)
    (hf : ∀ f ∈ c.fields, WfStr f ∧ f.length ≤ 2 ^ 16 - 1)
    (hsz : (createBody c).length < 2 ^ 32) :
    unpack_tts_create (createBody c) (createBody c).length = c := by
  obtain ⟨name, fields⟩ := c
  have hnl : name.length ≤ 2 ^ 8 - 1 := hnl
  have hnlm : name.length % 2 ^ 8 = name.length := Nat.mod_eq_of_lt (by omega)
  have hbl : (createBody ⟨name, fields⟩).length =
      1 + name.length + fieldsSize fields := createBody_length _
  have hsz32 : 1 + name.length + fieldsSize fields < 2 ^ 32 := by
    rw [hbl] at hsz; exact hsz
  simp only [unpack_tts_create, createBody, List.cons_append, unpacku8_cons, hnlm]
  rw [show name ++ fields.flatMap (fun f => packi16 f.length ++ f) =
    name ++ (fields.flatMap (fun f => packi16 f.length ++ f) ++ []) from by simp]
  rw [unpack_bytes_append]
  have hL : (name.length :: (name ++
      ((fields.flatMap fun f => packi16 f.length ++ f) ++ []))).length =
      1 + name.length + fieldsSize fields := by
    simp only [List.length_cons, List.length_append, List.append_nil,
      flatMapFields_length]
    omega
  rw [hL]
  rw [show wsub (1 + name.length + fieldsSize fields) (1 + name.length) =
    fieldsSize fields from by rw [wsub_eq_sub (by omega) (by omega)]; try omega]
  simp only [TtsCreate.mk.injEq, true_and]
  exact unpackCreateFields_encode fields [] (fieldsSize fields)
    (fun f hf2 => (hf f hf2).2)
    (fields_length_le_size fields) (by omega)

theorem unpack_pack_delete (d : TtsDelete) (hn : WfStr d.ts_name)
    (hnl : d.ts_name.length ≤ 2 ^ 8 - 1) :
    unpack_tts_delete (d.ts_name.length % 2 ^ 8 :: d.ts_name) = d := by
  obtain ⟨name⟩ := d
  have hnl : name.length ≤ 2 ^ 8 - 1 := hnl
  have hnlm : name.length % 2 ^ 8 = name.length := Nat.mod_eq_of_lt (by omega)
  simp only [unpack_tts_delete, unpacku8_cons, hnlm, TtsDelete.mk.injEq]
  have h := unpack_bytes_append name []
  simp only [List.append_nil] at h
  rw [h]

theorem addpointsBody_length (a : TtsAddpoints) :
    (addpointsBody a).length = 1 + a.ts_name.length + pointsSize a.points := by
  simp only [addpointsBody, List.cons_append, List.length_cons, List.length_append,
    flatMapPoints_length]
  omega

theorem unpack_pack_addpoints (a : TtsAddpoints) (hn : WfStr a.ts_name)
    (hnl : a.ts_name.length ≤ 2 ^ 8 - 1) (hp : ∀ pt ∈ a.points, WfPoint pt)
    (hsz : (addpointsBody a).length < 2 ^ 32) :
    unpack_tts_addpoints (addpointsBody a) (addpointsBody a).length = a := by
  obtain ⟨name, points⟩ := a
  have hnl : name.length ≤ 2 ^ 8 - 1 := hnl
  have hnlm : name.length % 2 ^ 8 = name.length := Nat.mod_eq_of_lt (by omega)
  have hbl : (addpointsBody ⟨name, points⟩).length =
      1 + name.length + pointsSize points := addpointsBody_length _
  have hsz32 : 1 + name.length + pointsSize points < 2 ^ 32 := by
    rw [hbl] at hsz; exact hsz
  simp only [unpack_tts_addpoints, addpointsBody, List.cons_append, unpacku8_cons, hnlm]
  rw [show name ++ points.flatMap pointBody =
    name ++ (points.flatMap pointBody ++ []) from by simp]
  rw [unpack_bytes_append]
  have hL : (name.length :: (name ++ (points.flatMap pointBody ++ []))).length =
      1 + name.length + pointsSize points := by
    simp only [List.length_cons, List.length_append, List.append_nil,
      flatMapPoints_length]
    omega
  rw [hL]
  rw [show wsub (1 + name.length + pointsSize points) (1 + name.length) =
    pointsSize points from by rw [wsub_eq_sub (by omega) (by omega)]; try omega]
  simp only [TtsAddpoints.mk.injEq, true_and]
  exact unpackPoints_encode points [] (pointsSize points) hp
    (points_length_le_size points) (by omega)

theorem unpack_bytes_zero (buf : List Nat) : unpack_bytes 0 buf = ([], buf) := rfl

theorem unpacku64_packi64_self (v : Nat) : unpacku64 (packi64 v) = (v % 2 ^ 64, []) := by
  have h := unpacku64_packi64 v []
  rwa [List.append_nil] at h

theorem unpack_bytes_self (l : List Nat) : unpack_bytes l.length l = (l, []) := by
  have h := unpack_bytes_append l []
  rwa [List.append_nil] at h

set_option maxHeartbeats 3200000 in
theorem unpack_pack_query (q : TtsQuery)
    (hq : q.qbyte < 2 ^ 8) (hn : WfStr q.ts_name) (hnl : q.ts_name.length ≤ 2 ^ 8 - 1)
    (hm : q.mean_val < 2 ^ 64) (hmaj : q.major_of < 2 ^ 64) (hmin : q.minor_of < 2 ^ 64)
    (hm0 : ¬ q.qbyte.testBit 0 → q.mean_val = 0)
    (hf0 : ¬ (q.qbyte.testBit 0 ∧ q.qbyte.testBit 5) → q.mean_field = [])
    (hmfl : q.mean_field.length ≤ 2 ^ 16 - 1)
    (h30 : ¬ q.qbyte.testBit 3 → q.major_of = 0)
    (h40 : ¬ q.qbyte.testBit 4 → q.minor_of = 0) :
    unpack_tts_query (queryBody q) = q := by
  obtain ⟨qb, name, mv, mf, maj, mnr⟩ := q
  have hq : qb < 2 ^ 8 := hq
  have hnl : name.length ≤ 2 ^ 8 - 1 := hnl
  have hm : mv < 2 ^ 64 := hm
  have hmaj : maj < 2 ^ 64 := hmaj
  have hmin : mnr < 2 ^ 64 := hmin
  have hm0 : ¬ qb.testBit 0 → mv = 0 := hm0
  have hf0 : ¬ (qb.testBit 0 ∧ qb.testBit 5) → mf = [] := hf0
  have h30 : ¬ qb.testBit 3 → maj = 0 := h30
  have h40 : ¬ qb.testBit 4 → mnr = 0 := h40
  have hmfl : mf.length ≤ 2 ^ 16 - 1 := hmfl
  have hqm : qb % 2 ^ 8 = qb := Nat.mod_eq_of_lt hq
  have hnm : name.length % 2 ^ 8 = name.length := Nat.mod_eq_of_lt (by omega)
  have hmv : mv % 2 ^ 64 = mv := Nat.mod_eq_of_lt hm
  have hmj : maj % 2 ^ 64 = maj := Nat.mod_eq_of_lt hmaj
  have hmn : mnr % 2 ^ 64 = mnr := Nat.mod_eq_of_lt hmin
  have hmfm : mf.length % 2 ^ 16 = mf.length := Nat.mod_eq_of_lt (by omega)
  by_cases h0 : qb.testBit 0 <;> by_cases h5 : qb.testBit 5 <;>
    by_cases h3 : qb.testBit 3 <;> by_cases h4 : qb.testBit 4
  all_goals (
    try (have hz1 := hm0 h0; subst hz1)
    try (have hz2 := hf0 (by intro hc; first | exact h0 hc.1 | exact h5 hc.2); subst hz2)
    try (have hz3 := h30 h3; subst hz3)
    try (have hz4 := h40 h4; subst hz4)
    simp only [queryBody, unpack_tts_query, h0, h3, h4, h5, if_true, if_false, ite_true,
      ite_false, eq_self_iff_true, Bool.false_eq_true, List.cons_append, List.append_assoc,
      List.nil_append, List.append_nil, List.length_nil, unpacku8_cons, hqm, hnm, hmv,
      hmj, hmn, hmfm, Nat.zero_mod, unpacku64_packi64, unpacku16_packi16,
      unpack_bytes_append, unpack_bytes_zero, unpacku64_packi64_self, unpack_bytes_self,
      TtsQuery.mk.injEq, and_true, true_and, and_self])

/-- C1 (amended): for every well-formed packet whose opcode is one of the four
request opcodes (CREATE = 0, DELETE = 1, ADDPOINTS = 2, QUERY = 3), decoding
the bytes produced by `pack_tts_packet` with `unpack_tts_packet` yields the
original packet, with field order (labels/values) and timestamps preserved.
The response opcodes are excluded: `pack_tts_packet` has no case for them
(see `pack_unpack_fails_on_query_response`). -/
theorem pack_unpack_roundtrip_requests (p : TtsPacket) (hwf : WfPacket p)
    (hreq : p.header ≤ 3) : unpack_tts_packet (pack_tts_packet p) = p := by
  obtain ⟨h, body⟩ := p
  obtain ⟨hh, hwf⟩ := hwf
  have hh8 : h % 2 ^ 8 = h := Nat.mod_eq_of_lt hh
  interval_cases h
  · -- CREATE
    cases body with
    | create c =>
      obtain ⟨hn, hnl, hf, hsz⟩ := hwf
      simp only [pack_tts_packet, unpack_tts_packet, unpacku8_cons, List.cons_append,
        pack_tts_create, unpacku32_packi32, Nat.mod_eq_of_lt hsz, TtsPacket.mk.injEq,
        Nat.zero_mod]
      refine ⟨by first | rfl | trivial, ?_⟩
      rw [unpack_pack_create c hn hnl hf hsz]
    | drop d => exact absurd hwf (by simp)
    | addpoints a => exact absurd hwf (by simp)
    | query q => exact absurd hwf (by simp)
    | queryAck qa => exact absurd hwf (by simp)
    | ack a => exact absurd hwf (by simp)
    | empty => exact absurd hwf (by simp)
  · -- DELETE
    cases body with
    | drop d =>
      obtain ⟨hn, hnl⟩ := hwf
      simp only [pack_tts_packet, unpack_tts_packet, unpacku8_cons, List.cons_append,
        pack_tts_delete, unpacku32_packi32, TtsPacket.mk.injEq]
      refine ⟨by first | rfl | trivial | omega, ?_⟩
      rw [unpack_pack_delete d hn hnl]
    | create c => exact absurd hwf (by simp)
    | addpoints a => exact absurd hwf (by simp)
    | query q => exact absurd hwf (by simp)
    | queryAck qa => exact absurd hwf (by simp)
    | ack a => exact absurd hwf (by simp)
    | empty => exact absurd hwf (by simp)
  · -- ADDPOINTS
    cases body with
    | addpoints a =>
      obtain ⟨hn, hnl, hp, hsz⟩ := hwf
      simp only [pack_tts_packet, unpack_tts_packet, unpacku8_cons, List.cons_append,
        pack_tts_addpoints, unpacku32_packi32, Nat.mod_eq_of_lt hsz, TtsPacket.mk.injEq]
      refine ⟨by first | rfl | trivial | omega, ?_⟩
      rw [unpack_pack_addpoints a hn hnl hp hsz]
    | create c => exact absurd hwf (by simp)
    | drop d => exact absurd hwf (by simp)
    | query q => exact absurd hwf (by simp)
    | queryAck qa => exact absurd hwf (by simp)
    | ack a => exact absurd hwf (by simp)
    | empty => exact absurd hwf (by simp)
  · -- QUERY
    cases body with
    | query q =>
      obtain ⟨hq, hn, hnl, hm, hmaj, hmin, hm0, hf0, hmfw, hmfl, h30, h40⟩ := hwf
      simp only [pack_tts_packet, unpack_tts_packet, unpacku8_cons, List.cons_append,
        pack_tts_query, unpacku32_packi32, TtsPacket.mk.injEq]
      refine ⟨by first | rfl | trivial | omega, ?_⟩
      rw [unpack_pack_query q hq hn hnl hm hmaj hmin hm0 hf0 hmfl h30 h40]
    | create c => exact absurd hwf (by simp)
    | drop d => exact absurd hwf (by simp)
    | addpoints a => exact absurd hwf (by simp)
    | queryAck qa => exact absurd hwf (by simp)
    | ack a => exact absurd hwf (by simp)
    | empty => exact absurd hwf (by simp)

/-- Counterexample to C1 as stated: a well-formed QUERY_RESPONSE packet (header
byte `4 = TTS_QUERY_RESPONSE`, one result row) does not survive the round
trip — `pack_tts_packet` has no case for the response opcodes, so it emits
only the header byte and the decoder rebuilds an empty result list. -/
theorem pack_unpack_fails_on_query_response :
    WfPacket ⟨4, .queryAck ⟨[⟨0, 0, 0, []⟩]⟩⟩ ∧
    unpack_tts_packet (pack_tts_packet ⟨4, .queryAck ⟨[⟨0, 0, 0, []⟩]⟩⟩) ≠
      ⟨4, .queryAck ⟨[⟨0, 0, 0, []⟩]⟩⟩ := by
  constructor
  · exact ⟨by norm_num, by decide⟩
  · decide

/-- Witness for `pack_unpack_roundtrip_requests` at a concrete CREATE packet
(name `"a"`, one field `"b"`). -/
theorem pack_unpack_roundtrip_requests_witness :
    WfPacket ⟨0, .create ⟨[97], [[98]]⟩⟩ ∧
    unpack_tts_packet (pack_tts_packet ⟨0, .create ⟨[97], [[98]]⟩⟩) =
      ⟨0, .create ⟨[97], [[98]]⟩⟩ := by
  have hwf : WfPacket ⟨0, .create ⟨[97], [[98]]⟩⟩ := by
    refine ⟨by norm_num, by decide, by decide, by decide, by decide⟩
  exact ⟨hwf, pack_unpack_roundtrip_requests _ hwf (by norm_num)⟩

/-- C6: the decoder has no failure path.  This buffer declares a `u32` body
length of 10 but carries only 2 body bytes (`name_len = 1`, name `"A"`), so
the declared length is inconsistent with the observed field lengths — yet
`unpack_tts_packet` still produces a packet (it reads the 8 missing bytes
past the end of the buffer and manufactures four empty fields while the
remaining-length counter is counted down), and `unpack_tts_packet` has no
MALFORMED outcome at all: its result type carries no error case, and
`on_data` in `tts_server.c` never closes the connection, unconditionally
handling the packet and enqueueing a response. -/
theorem unpack_malformed_produces_packet :
    unpack_tts_packet [0, 0, 0, 0, 10, 1, 65] =
      ⟨0, .create ⟨[65], [[], [], [], []]⟩⟩ := by decide

theorem nlog2Aux_lt (fuel : Nat) : ∀ n k : Nat, n < 2 ^ k → 0 < k →
    nlog2Aux fuel n < k := by
  induction fuel with
  | zero => intro n k _ hk; simpa [nlog2Aux] using hk
  | succ fuel ih =>
    intro n k hn hk
    simp only [nlog2Aux]
    by_cases h2 : 2 ≤ n
    · rw [if_pos h2]
      have hk2 : 2 ≤ k := by
        by_contra hlt
        interval_cases k <;> omega
      have hd : n / 2 < 2 ^ (k - 1) := by
        have : 2 ^ k = 2 * 2 ^ (k - 1) := by
          rw [← pow_succ']
          congr 1
          omega
        omega
      have := ih (n / 2) (k - 1) hd (by omega)
      omega
    · rw [if_neg h2]; exact hk

theorem rhe_intCast (z : ℤ) : rhe (z : ℚ) = z := by
  simp [rhe, Int.floor_intCast]

theorem rnd_nat_exact (m : Nat) (hm : m < 2 ^ 53) : rnd (m : ℚ) = m := by
  rcases Nat.eq_zero_or_pos m with hm0 | hm0
  · subst hm0; simp [rnd]
  have hq0 : ¬ (m : ℚ) ≤ 0 := by
    push_neg
    exact_mod_cast hm0
  have hlog : nlog2 m ≤ 52 := by
    have := nlog2Aux_lt m m 53 (by exact_mod_cast hm) (by norm_num)
    simpa [nlog2] using by omega
  have hf52 : flog2 (m : ℚ) ≤ 52 := by
    simp only [flog2, Rat.num_natCast, Rat.den_natCast, Int.toNat_natCast]
    have h1 : nlog2 1 = 0 := rfl
    split
    · simp [h1]; omega
    · simp [h1]; omega
  set f : ℤ := flog2 (m : ℚ) with hfdef
  have hneg : -(f - 52) = ((52 - f).toNat : ℤ) := by omega
  have hkey : (m : ℚ) * 2 ^ (-(f - 52)) = ((m * 2 ^ (52 - f).toNat : ℕ) : ℚ) := by
    rw [hneg, zpow_natCast]
    push_cast
    ring
  rw [rnd, if_neg hq0]
  simp only [← hfdef, hkey]
  rw [show ((m * 2 ^ (52 - f).toNat : ℕ) : ℚ) = (((m * 2 ^ (52 - f).toNat : ℕ) : ℤ) : ℚ)
    from by push_cast; ring]
  rw [rhe_intCast]
  push_cast
  rw [mul_assoc, ← zpow_natCast (2 : ℚ) ((52 - f).toNat), ← hneg,
    ← zpow_add₀ (by norm_num : (2 : ℚ) ≠ 0)]
  simp

theorem nlog2Aux_bounds (fuel : Nat) : ∀ n, 1 ≤ n → n ≤ fuel →
    2 ^ nlog2Aux fuel n ≤ n ∧ n < 2 ^ (nlog2Aux fuel n + 1) := by
  induction fuel with
  | zero => intro n h1 h2; omega
  | succ fuel ih =>
    intro n h1 h2
    simp only [nlog2Aux]
    by_cases h : 2 ≤ n
    · rw [if_pos h]
      have hrec := ih (n / 2) (by omega) (by omega)
      obtain ⟨hlo, hhi⟩ := hrec
      constructor
      · calc 2 ^ (nlog2Aux fuel (n / 2) + 1) = 2 * 2 ^ nlog2Aux fuel (n / 2) := by
              rw [pow_succ]; ring
          _ ≤ 2 * (n / 2) := by omega
          _ ≤ n := by omega
      · calc n ≤ 2 * (n / 2) + 1 := by omega
          _ < 2 * 2 ^ (nlog2Aux fuel (n / 2) + 1) := by omega
          _ = 2 ^ (nlog2Aux fuel (n / 2) + 1 + 1) := by rw [pow_succ]; ring
    · rw [if_neg h]
      simp
      omega

theorem nlog2_bounds (n : Nat) (h : 1 ≤ n) :
    2 ^ nlog2 n ≤ n ∧ n < 2 ^ (nlog2 n + 1) :=
  nlog2Aux_bounds n n h le_rfl

/-- Round-to-nearest-even drops a tail smaller than half an ulp: for a
53-bit significand `M` scaled by `2^e` plus a remainder `r` below half of
`2^e`, `rnd` returns `M * 2^e`. -/
theorem rnd_round_down (M e r : Nat) (hM1 : 2 ^ 52 ≤ M) (hM2 : M < 2 ^ 53)
    (hr : 2 * r < 2 ^ e) :
    rnd ((M * 2 ^ e + r : Nat) : ℚ) = ((M * 2 ^ e : Nat) : ℚ) := by
  have he1 : 1 ≤ 2 ^ e := Nat.one_le_two_pow
  have hq1 : (1 : Nat) ≤ M * 2 ^ e + r := by
    have : 1 ≤ M := by omega
    nlinarith
  have hlo : 2 ^ (52 + e) ≤ M * 2 ^ e + r := by
    calc 2 ^ (52 + e) = 2 ^ 52 * 2 ^ e := by rw [pow_add]
      _ ≤ M * 2 ^ e := Nat.mul_le_mul_right _ hM1
      _ ≤ M * 2 ^ e + r := by omega
  have hhi : M * 2 ^ e + r < 2 ^ (53 + e) := by
    calc M * 2 ^ e + r < M * 2 ^ e + 2 ^ e := by omega
      _ = (M + 1) * 2 ^ e := by ring
      _ ≤ 2 ^ 53 * 2 ^ e := Nat.mul_le_mul_right _ (by omega)
      _ = 2 ^ (53 + e) := by rw [pow_add]
  have hlog : nlog2 (M * 2 ^ e + r) = 52 + e := by
    obtain ⟨hl, hh⟩ := nlog2_bounds _ hq1
    by_contra hne
    rcases Nat.lt_or_ge (nlog2 (M * 2 ^ e + r)) (52 + e) with hlt | hge
    · have : M * 2 ^ e + r < 2 ^ (52 + e) := by
        calc M * 2 ^ e + r < 2 ^ (nlog2 (M * 2 ^ e + r) + 1) := hh
          _ ≤ 2 ^ (52 + e) := Nat.pow_le_pow_right (by norm_num) (by omega)
      omega
    · have hgt : 52 + e < nlog2 (M * 2 ^ e + r) := by omega
      have : 2 ^ (53 + e) ≤ M * 2 ^ e + r := by
        calc 2 ^ (53 + e) ≤ 2 ^ nlog2 (M * 2 ^ e + r) :=
              Nat.pow_le_pow_right (by norm_num) (by omega)
          _ ≤ M * 2 ^ e + r := hl
      omega
  have hqpos : ¬ ((M * 2 ^ e + r : Nat) : ℚ) ≤ 0 := by
    push_neg
    exact_mod_cast hq1
  have hflog : flog2 ((M * 2 ^ e + r : Nat) : ℚ) = ((52 + e : Nat) : ℤ) := by
    have hc : ((nlog2 (M * 2 ^ e + r) : ℤ) - (nlog2 1 : ℤ)) = ((52 + e : Nat) : ℤ) := by
      rw [hlog, show nlog2 1 = 0 from rfl]
      push_cast
      ring
    simp only [flog2, Rat.num_natCast, Rat.den_natCast, Int.toNat_natCast, hc]
    rw [if_pos]
    rw [zpow_natCast]
    exact_mod_cast hlo
  simp only [rnd, hflog]
  rw [if_neg hqpos]
  rw [show (((52 + e : Nat) : ℤ) - 52) = (e : ℤ) from by omega]
  have hqe : ((M * 2 ^ e + r : Nat) : ℚ) * 2 ^ (-(e : ℤ)) = M + r / 2 ^ e := by
    rw [zpow_neg, zpow_natCast]
    push_cast
    field_simp
    try ring
  rw [hqe]
  have h2e : (0 : ℚ) < 2 ^ e := by positivity
  have hfr : (r : ℚ) / 2 ^ e < 1 / 2 := by
    rw [div_lt_div_iff h2e (by norm_num)]
    calc (r : ℚ) * 2 = ((2 * r : Nat) : ℚ) := by push_cast; ring
      _ < ((2 ^ e : Nat) : ℚ) := by exact_mod_cast hr
      _ = 1 * 2 ^ e := by push_cast; ring
  have hfr0 : (0 : ℚ) ≤ (r : ℚ) / 2 ^ e := by positivity
  have hfl : ⌊(M : ℚ) + r / 2 ^ e⌋ = (M : ℤ) := by
    rw [Int.floor_eq_iff]
    constructor
    · push_cast; linarith
    · push_cast; linarith
  have hrhe : rhe ((M : ℚ) + r / 2 ^ e) = (M : ℤ) := by
    simp only [rhe, hfl]
    rw [if_pos]
    push_cast
    linarith
  rw [hrhe]
  rw [zpow_natCast]
  push_cast
  ring

/-- C2 (amended): when a timeseries with the requested name already exists,
`handle_tts_create` leaves the registry completely unchanged (the existing
series keeps its retention, timestamps and records) and responds with an ACK
whose header status is `TTS_ENOTS` (1) — not `TTS_OK`: the handler sets
`rc = TTS_ENOTS` in the already-exists branch and logs "exists already". -/
theorem handle_tts_create_existing_acks_enots (db : Db) (name : List Nat)
    (r : Nat) (ts : Timeseries) (h : dbFind db name = some ts) :
    handle_tts_create db name r = (db, .ack TTS_ENOTS) := by
  simp [handle_tts_create, h]

/-- Counterexample to C2 as stated: with `"t" = [116]` already present, the
ACK status is not OK (it is `TTS_ENOTS`), although the registry is indeed
unchanged. -/
theorem handle_tts_create_existing_not_ok :
    (handle_tts_create [([116], TTS_TIMESERIES_INIT [116] 5)] [116] 5).2 ≠
      .ack TTS_OK ∧
    (handle_tts_create [([116], TTS_TIMESERIES_INIT [116] 5)] [116] 5).1 =
      [([116], TTS_TIMESERIES_INIT [116] 5)] := by
  constructor <;> decide

/-- Witness for `handle_tts_create_existing_acks_enots` at a concrete
registry. -/
theorem handle_tts_create_existing_acks_enots_witness :
    dbFind [([116], TTS_TIMESERIES_INIT [116] 5)] [116] =
      some (TTS_TIMESERIES_INIT [116] 5) ∧
    handle_tts_create [([116], TTS_TIMESERIES_INIT [116] 5)] [116] 0 =
      ([([116], TTS_TIMESERIES_INIT [116] 5)], .ack TTS_ENOTS) :=
  ⟨by decide,
   handle_tts_create_existing_acks_enots _ _ _ (TTS_TIMESERIES_INIT [116] 5)
     (by decide)⟩

/-- C5: a QUERY with the `first` bit (or the `last` bit) on an existing but
empty timeseries does not produce a zero-row QUERY_RESPONSE: before
dispatching on first/last the handler computes
`TTS_VECTOR_SIZE - 1` (wrapping to `2^64 - 1`) and reads
`TTS_VECTOR_AT(timestamps, 0)` and `TTS_VECTOR_AT(timestamps, 2^64 - 1)`
of the empty vector — out-of-bounds accesses, reported as `none` by the
embedding (undefined behaviour in C). -/
theorem handle_tts_query_first_empty_oob :
    handle_tts_query [([116], TTS_TIMESERIES_INIT [116] 0)]
      ⟨2, [116], 0, 0, 0⟩ = none ∧
    handle_tts_query [([116], TTS_TIMESERIES_INIT [116] 0)]
      ⟨4, [116], 0, 0, 0⟩ = none := by
  constructor <;> decide

theorem cTimestamp_exact (sec nsec : Nat) (h : sec * 10 ^ 9 + nsec < 2 ^ 53) :
    cTimestamp sec nsec = sec * 10 ^ 9 + nsec := by
  have hsec : sec ≤ sec * 10 ^ 9 := Nat.le_mul_of_pos_right sec (by norm_num)
  have h1 : rnd (sec : ℚ) = (sec : ℚ) := rnd_nat_exact sec (by omega)
  have h3 : rnd (nsec : ℚ) = (nsec : ℚ) := rnd_nat_exact nsec (by omega)
  unfold cTimestamp
  rw [h1, h3]
  rw [show ((sec : ℚ) * 10 ^ 9) = ((sec * 10 ^ 9 : Nat) : ℚ) from by push_cast; ring]
  rw [rnd_nat_exact (sec * 10 ^ 9) (by omega)]
  rw [show (((sec * 10 ^ 9 : Nat) : ℚ) + (nsec : ℚ)) =
    ((sec * 10 ^ 9 + nsec : Nat) : ℚ) from by push_cast; ring]
  rw [rnd_nat_exact (sec * 10 ^ 9 + nsec) h]
  unfold toU64
  rw [Int.floor_natCast, Int.toNat_natCast]
  exact Nat.mod_eq_of_lt (by
    calc sec * 10 ^ 9 + nsec < 2 ^ 53 := h
      _ < 2 ^ 64 := by norm_num)

/-- C7 (amended): the timestamp `handle_tts_addpoints` appends for a point
is `ts_sec * 1e9 + ts_nsec` computed in IEEE-754 `double` arithmetic (the C
expression uses the `double` literal `1e9`), with a component whose flag bit
is clear first filled from the wall clock; it equals the exact integer
`ts_sec * 10^9 + ts_nsec` whenever that exact value is below `2^53` (the
`double` significand), and in general is only the rounding of it (see
`addpoints_timestamp_rounds_large`). -/
theorem addpoints_timestamp_exact_when_small (clock : Nat × Nat)
    (ts : Timeseries) (p : HPoint)
    (h : (if p.flags.testBit 0 then p.ts_sec else clock.1) * 10 ^ 9 +
         (if p.flags.testBit 1 then p.ts_nsec else clock.2) < 2 ^ 53) :
    (applyPoint clock ts p).timestamps =
      ts.timestamps ++
        [(if p.flags.testBit 0 then p.ts_sec else clock.1) * 10 ^ 9 +
         (if p.flags.testBit 1 then p.ts_nsec else clock.2)] := by
  simp only [applyPoint]
  rw [cTimestamp_exact _ _ h]

/-- Counterexample to C7 as stated: for `ts_sec = 1700000000`,
`ts_nsec = 123` (both flag bits set), the appended timestamp is
`1700000000000000000` — the nanosecond component is rounded away by the
`double` arithmetic — not the exact `1700000000 * 10^9 + 123`. -/
theorem addpoints_timestamp_rounds_large :
    (applyPoint (0, 0) (TTS_TIMESERIES_INIT [] 0)
      ⟨3, 1700000000, 123, 0, []⟩).timestamps = [1700000000000000000] ∧
    (1700000000000000000 : Nat) ≠ 1700000000 * 10 ^ 9 + 123 := by
  have h1 : cTimestamp 1700000000 123 = 1700000000000000000 := by
    unfold cTimestamp
    rw [rnd_nat_exact 1700000000 (by norm_num), rnd_nat_exact 123 (by norm_num)]
    rw [show ((1700000000 : Nat) : ℚ) * 10 ^ 9 =
      ((6640625000000000 * 2 ^ 8 + 0 : Nat) : ℚ) from by push_cast; norm_num]
    rw [rnd_round_down 6640625000000000 8 0 (by norm_num) (by norm_num) (by norm_num)]
    rw [show (((6640625000000000 * 2 ^ 8 : Nat) : ℚ) + ((123 : Nat) : ℚ)) =
      ((6640625000000000 * 2 ^ 8 + 123 : Nat) : ℚ) from by push_cast; ring]
    rw [rnd_round_down 6640625000000000 8 123 (by norm_num) (by norm_num) (by norm_num)]
    unfold toU64
    rw [Int.floor_natCast, Int.toNat_natCast]
    norm_num
  constructor
  · simp only [applyPoint]
    norm_num [TTS_TIMESERIES_INIT]
    convert h1 using 2 <;> norm_num [Nat.testBit]
  · norm_num

/-- Witness for `addpoints_timestamp_exact_when_small` at
`ts_sec = 1`, `ts_nsec = 5`. -/
theorem addpoints_timestamp_exact_when_small_witness :
    (1 : Nat) * 10 ^ 9 + 5 < 2 ^ 53 ∧
    (applyPoint (0, 0) (TTS_TIMESERIES_INIT [] 0)
      ⟨3, 1, 5, 0, []⟩).timestamps = [] ++ [1 * 10 ^ 9 + 5] := by
  refine ⟨by norm_num, ?_⟩
  have h := addpoints_timestamp_exact_when_small (0, 0) (TTS_TIMESERIES_INIT [] 0)
    ⟨3, 1, 5, 0, []⟩ (by decide)
  simpa [TTS_TIMESERIES_INIT] using h

theorem applyPoint_lengths (clock : Nat × Nat) (ts : Timeseries) (p : HPoint) :
    (applyPoint clock ts p).timestamps.length = ts.timestamps.length + 1 ∧
    (applyPoint clock ts p).columns.length = ts.columns.length + 1 := by
  simp [applyPoint]

theorem foldl_applyPoint_lengths (clock : Nat × Nat) (pts : List HPoint) :
    ∀ ts : Timeseries,
      (pts.foldl (applyPoint clock) ts).timestamps.length =
        ts.timestamps.length + pts.length ∧
      (pts.foldl (applyPoint clock) ts).columns.length =
        ts.columns.length + pts.length := by
  induction pts with
  | nil => intro ts; simp
  | cons p pts ih =>
    intro ts
    simp only [List.foldl_cons, List.length_cons]
    obtain ⟨h1, h2⟩ := ih (applyPoint clock ts p)
    obtain ⟨g1, g2⟩ := applyPoint_lengths clock ts p
    omega

theorem dbFind_mem (db : Db) (name : List Nat) (ts : Timeseries)
    (h : dbFind db name = some ts) : (name, ts) ∈ db := by
  induction db with
  | nil => simp [dbFind] at h
  | cons p rest ih =>
    simp only [dbFind] at h
    split at h
    · next heq =>
      obtain ⟨hn, hts⟩ : p.1 = name ∧ p.2 = ts := ⟨heq, by injection h⟩
      have hp : p = (name, ts) := by
        obtain ⟨a, b⟩ := p
        simp only at hn hts
        rw [hn, hts]
      rw [← hp]
      exact List.mem_cons_self p rest
    · right
      exact ih h

/-- C9: every operation reachable from the dispatcher preserves positional
pairing (`len(timestamps) = len(columns)` for every registered series), and
each ADDPOINTS point appends exactly one timestamp and one record. -/
theorem handlers_preserve_pairing :
    (∀ (req : HRequest) (db : Db) (clock : Nat × Nat), DbInv db →
      DbInv (tts_handle_packet req db clock).1) ∧
    (∀ (clock : Nat × Nat) (ts : Timeseries) (p : HPoint),
      (applyPoint clock ts p).timestamps.length = ts.timestamps.length + 1 ∧
      (applyPoint clock ts p).columns.length = ts.columns.length + 1) := by
  constructor
  · intro req db clock hinv
    match req with
    | .create name r =>
      simp only [tts_handle_packet, handle_tts_create]
      match hfind : dbFind db name with
      | some ts => exact hinv
      | none =>
        intro p hp
        rcases List.mem_cons.mp hp with hp | hp
        · rw [hp]; rfl
        · exact hinv p hp
    | .drop name =>
      simp only [tts_handle_packet, handle_tts_delete]
      match hfind : dbFind db name with
      | none => exact hinv
      | some ts =>
        intro p hp
        exact hinv p (List.mem_of_mem_filter hp)
    | .addpoints name pts =>
      simp only [tts_handle_packet, handle_tts_addpoints]
      match hfind : dbFind db name with
      | some ts =>
        intro p hp
        simp only [dbUpdate, List.mem_map] at hp
        obtain ⟨q, hq, hpq⟩ := hp
        by_cases hqn : q.1 = name
        · rw [if_pos hqn] at hpq
          rw [← hpq]
          obtain ⟨h1, h2⟩ := foldl_applyPoint_lengths clock pts ts
          have hts : ts.timestamps.length = ts.columns.length := by
            have := dbFind_mem db name ts hfind
            exact hinv (name, ts) this
          simp only
          omega
        · rw [if_neg hqn] at hpq
          rw [← hpq]
          exact hinv q hq
      | none =>
        show DbInv (dbInsert db name (pts.foldl (applyPoint clock)
          (TTS_TIMESERIES_INIT name 0)))
        intro p hp
        rcases List.mem_cons.mp hp with hp | hp
        · rw [hp]
          obtain ⟨h1, h2⟩ := foldl_applyPoint_lengths clock pts
            (TTS_TIMESERIES_INIT name 0)
          simp only
          rw [h1, h2]
          simp [TTS_TIMESERIES_INIT]
        · exact hinv p hp
    | .query q => exact hinv
  · exact applyPoint_lengths

/-- Witness for `handlers_preserve_pairing`: the invariant survives a CREATE
on the empty registry, and one concrete point append grows both vectors by
one. -/
theorem handlers_preserve_pairing_witness :
    DbInv ((tts_handle_packet (.create [116] 0) [] (0, 0)).1) ∧
    (applyPoint (0, 0) (TTS_TIMESERIES_INIT [116] 0)
        ⟨3, 1, 5, 0, []⟩).timestamps.length = 0 + 1 :=
  ⟨handlers_preserve_pairing.1 (.create [116] 0) [] (0, 0) (by simp [DbInv]),
   (handlers_preserve_pairing.2 (0, 0) (TTS_TIMESERIES_INIT [116] 0)
     ⟨3, 1, 5, 0, []⟩).1⟩

theorem sorted_getD_mono (s : List Nat) (hs : List.Sorted (· ≤ ·) s)
    (i j : Nat) (hij : i ≤ j) (hj : j < s.length) :
    s.getD i 0 ≤ s.getD j 0 := by
  rcases Nat.eq_or_lt_of_le hij with h | h
  · rw [h]
  · have hi : i < s.length := lt_trans h hj
    rw [List.getD_eq_getElem s 0 hi, List.getD_eq_getElem s 0 hj]
    exact List.pairwise_iff_getElem.mp hs i j hi hj h

theorem binsearchLoop_spec (s : List Nat) (t : Nat)
    (hs : List.Sorted (· ≤ ·) s) (hn : 0 < s.length) (hsz : s.length < 2 ^ 64)
    (h0 : s.getD 0 0 < t) (hlast : t ≤ s.getD (s.length - 1) 0) :
    ∀ d fuel left right,
      left ≤ right + 1 → right < s.length →
      (∀ i, i < left → s.getD i 0 < t) →
      (∀ i, right < i → i < s.length → t < s.getD i 0) →
      right + 1 - left ≤ fuel → right + 1 - left ≤ d →
      binsearchLoop s t fuel left right < s.length ∧
      ((∃ k, k < s.length ∧ s.getD k 0 = t) →
        s.getD (binsearchLoop s t fuel left right) 0 = t) ∧
      (¬ (∃ k, k < s.length ∧ s.getD k 0 = t) →
        (∀ i, i < binsearchLoop s t fuel left right → s.getD i 0 < t) ∧
        (∀ i, binsearchLoop s t fuel left right ≤ i → i < s.length →
          t < s.getD i 0)) := by
  intro d
  induction d with
  | zero =>
    intro fuel left right hlr hrn hA hB hfuel hd
    -- measure 0: left = right + 1, and the loop returns `left` (either the
    -- `left ≤ right` test fails, or fuel is 0)
    have hleft : left = right + 1 := by omega
    have hres : binsearchLoop s t fuel left right = left := by
      cases fuel with
      | zero => rfl
      | succ fu =>
        simp only [binsearchLoop]
        rw [if_neg (by omega)]
    rw [hres]
    have hlt : left < s.length := by
      by_contra hge
      have : s.getD (s.length - 1) 0 < t := hA (s.length - 1) (by omega)
      omega
    refine ⟨hlt, ?_, ?_⟩
    · rintro ⟨k, hk, hkt⟩
      have := hA k
      have := hB k
      by_cases hkl : k < left
      · have := hA k hkl; omega
      · have := hB k (by omega) hk; omega
    · intro _
      exact ⟨fun i hi => hA i hi, fun i hi hi2 => hB i (by omega) hi2⟩
  | succ d ih =>
    intro fuel left right hlr hrn hA hB hfuel hd
    by_cases hle : left ≤ right
    · obtain ⟨fu, rfl⟩ : ∃ fu, fuel = fu + 1 := ⟨fuel - 1, by omega⟩
      simp only [binsearchLoop]
      rw [if_pos hle]
      have hmid_lo : left ≤ (left + right) / 2 := by omega
      have hmid_hi : (left + right) / 2 ≤ right := by omega
      have hmid_n : (left + right) / 2 < s.length := by omega
      rcases lt_trichotomy (s.getD ((left + right) / 2) 0) t with hv | hv | hv
      · rw [if_pos hv]
        apply ih fu ((left + right) / 2 + 1) right (by omega) hrn
        · intro i hi
          calc s.getD i 0 ≤ s.getD ((left + right) / 2) 0 :=
                sorted_getD_mono s hs i _ (by omega) hmid_n
            _ < t := hv
        · exact hB
        · omega
        · omega
      · rw [if_neg (by omega), if_neg (by omega)]
        exact ⟨hmid_n, fun _ => hv, fun habs => absurd ⟨_, hmid_n, hv⟩ habs⟩
      · rw [if_neg (by omega), if_pos hv]
        have hmpos : 0 < (left + right) / 2 := by
          rcases Nat.eq_zero_or_pos ((left + right) / 2) with hz | hp
          · rw [hz] at hv; omega
          · exact hp
        rw [wsub_eq_sub (by omega) (by omega)]
        apply ih fu left ((left + right) / 2 - 1) (by omega) (by omega) hA
        · intro i hi hi2
          calc t < s.getD ((left + right) / 2) 0 := hv
            _ ≤ s.getD i 0 := sorted_getD_mono s hs _ i (by omega) hi2
        · omega
        · omega
    · have hleft : left = right + 1 := by omega
      have hres : binsearchLoop s t fuel left right = left := by
        cases fuel with
        | zero => rfl
        | succ fu =>
          simp only [binsearchLoop]
          rw [if_neg (by omega)]
      rw [hres]
      have hlt : left < s.length := by
        by_contra hge
        have : s.getD (s.length - 1) 0 < t := hA (s.length - 1) (by omega)
        omega
      refine ⟨hlt, ?_, ?_⟩
      · rintro ⟨k, hk, hkt⟩
        by_cases hkl : k < left
        · have := hA k hkl; omega
        · have := hB k (by omega) hk; omega
      · intro _
        exact ⟨fun i hi => hA i hi, fun i hi hi2 => hB i (by omega) hi2⟩

/-- Combined fast-path and main-branch characterisation of `binsearch`
(shared between the vector-level and range-level claims). -/
theorem binsearch_props (s : List Nat) (t : Nat) (hs : List.Sorted (· ≤ ·) s)
    (hn : 0 < s.length) (hsz : s.length < 2 ^ 64) :
    (t ≤ s.getD 0 0 → binsearch s t = 0) ∧
    (s.getD (s.length - 1) 0 < t → binsearch s t = s.length - 1) ∧
    (s.getD 0 0 < t → t ≤ s.getD (s.length - 1) 0 →
      binsearch s t < s.length ∧
      ((∃ k, k < s.length ∧ s.getD k 0 = t) → s.getD (binsearch s t) 0 = t) ∧
      (¬ (∃ k, k < s.length ∧ s.getD k 0 = t) →
        (∀ i, i < binsearch s t → s.getD i 0 < t) ∧
        (∀ i, binsearch s t ≤ i → i < s.length → t < s.getD i 0))) := by
  refine ⟨?_, ?_, ?_⟩
  · intro h
    simp only [binsearch]
    rw [if_pos h]
  · intro h
    simp only [binsearch]
    have hm := sorted_getD_mono s hs 0 (s.length - 1) (by omega) (by omega)
    rw [if_neg (by omega), if_pos h]
  · intro hlo hhi
    simp only [binsearch]
    rw [if_neg (by omega), if_neg (by omega)]
    have h := binsearchLoop_spec s t hs hn hsz hlo hhi s.length (s.length + 1)
      0 (s.length - 1) (by omega) (by omega)
      (fun i hi => absurd hi (by omega))
      (fun i hi hi2 => absurd hi2 (by omega))
      (by omega) (by omega)
    exact h

/-- C8: on a sorted non-empty vector, `TTS_VECTOR_BINSEARCH` has the two fast
paths (`t ≤ first → 0`, `t > last → len - 1`), and otherwise returns a
position of `t` when `t` is present and the classic lower-bound insertion
point (every element strictly below the result is `< t`, every element from
the result on is `> t`) when it is absent.  (`s.length < 2^64` reflects that
a vector's `size` is a `size_t`.) -/
theorem binsearch_spec (s : List Nat) (t : Nat) (hs : List.Sorted (· ≤ ·) s)
    (hn : 0 < s.length) (hsz : s.length < 2 ^ 64) :
    (t ≤ s.getD 0 0 → binsearch s t = 0) ∧
    (s.getD (s.length - 1) 0 < t → binsearch s t = s.length - 1) ∧
    (s.getD 0 0 < t → t ≤ s.getD (s.length - 1) 0 →
      binsearch s t < s.length ∧
      ((∃ k, k < s.length ∧ s.getD k 0 = t) → s.getD (binsearch s t) 0 = t) ∧
      (¬ (∃ k, k < s.length ∧ s.getD k 0 = t) →
        (∀ i, i < binsearch s t → s.getD i 0 < t) ∧
        (∀ i, binsearch s t ≤ i → i < s.length → t < s.getD i 0))) :=
  binsearch_props s t hs hn hsz

/-- Witness for `binsearch_spec` on `[1, 3, 5]`: `t = 3` is found at its
position, and the fast paths hit for `t = 0` and `t = 9`. -/
theorem binsearch_spec_witness :
    List.Sorted (· ≤ ·) [1, 3, 5] ∧
    [1, 3, 5].getD (binsearch [1, 3, 5] 3) 0 = 3 ∧
    binsearch [1, 3, 5] 0 = 0 ∧ binsearch [1, 3, 5] 9 = 2 := by
  have hs : List.Sorted (· ≤ ·) [1, 3, 5] := by decide
  have h := binsearch_spec [1, 3, 5] 3 hs (by norm_num) (by norm_num)
  refine ⟨hs, ?_, ?_, ?_⟩
  · exact (h.2.2 (by norm_num) (by norm_num)).2.1 ⟨1, by norm_num, by decide⟩
  · exact (binsearch_spec [1, 3, 5] 0 hs (by norm_num) (by norm_num)).1 (by decide)
  · exact (binsearch_spec [1, 3, 5] 9 hs (by norm_num) (by norm_num)).2.1 (by decide)

/-- In a sorted list, a downward-closed predicate holds exactly on the
`takeWhile` prefix. -/
theorem sorted_takeWhile_char (p : Nat → Bool)
    (hp : ∀ x y, x ≤ y → p y = true → p x = true) :
    ∀ s : List Nat, List.Sorted (· ≤ ·) s →
      ∀ j, j < s.length → (p (s.getD j 0) = true ↔ j < (s.takeWhile p).length)
  | [], _, j, hj => by simp at hj
  | x :: xs, hs, j, hj => by
    obtain ⟨hx, hxs⟩ := List.sorted_cons.mp hs
    by_cases hpx : p x = true
    · rw [List.takeWhile_cons_of_pos hpx]
      cases j with
      | zero => simpa using hpx
      | succ j =>
        have hj' : j < xs.length := by simpa using hj
        have := sorted_takeWhile_char p hp xs hxs j hj'
        simpa using this
    · rw [List.takeWhile_cons_of_neg hpx]
      cases j with
      | zero => simpa using hpx
      | succ j =>
        have hj' : j < xs.length := by simpa using hj
        simp only [List.getD_cons_succ, List.length_nil, Nat.not_lt_zero, iff_false]
        intro habs
        apply hpx
        apply hp x (xs.getD j 0) _ habs
        have hmem : xs.getD j 0 ∈ xs := by
          rw [List.getD_eq_getElem xs 0 hj']
          exact List.getElem_mem hj'
        exact hx _ hmem

/-- The backward expansion loop lands exactly on the first index whose
timestamp is `≥ major`, provided that index is at least 1 and at most the
start position. -/
theorem expandLo_spec (s : List Nat) (a : Nat) (LB : Nat)
    (hchar : ∀ j, j < s.length → (a ≤ s.getD j 0 ↔ LB ≤ j)) (hLB : 1 ≤ LB) :
    ∀ i, i < s.length → LB ≤ i + 1 → expandLo s a i (i + 1) = LB := by
  intro i
  induction i with
  | zero =>
    intro _ hle
    simp only [expandLo]
    omega
  | succ i ih =>
    intro hn hle
    simp only [expandLo]
    by_cases hcond : a ≤ s.getD (i + 1) 0
    · rw [if_pos hcond]
      have hLBi : LB ≤ i + 1 := (hchar (i + 1) hn).mp hcond
      have := ih (by omega) hLBi
      simpa using this
    · rw [if_neg hcond]
      have := (hchar (i + 1) hn).not.mp hcond
      omega

/-- The forward expansion loop lands exactly on the last index whose
timestamp is `≤ minor` (which is `UB - 1` where `UB` counts such
timestamps). -/
theorem expandHi_spec (s : List Nat) (b : Nat) (UB : Nat)
    (hchar : ∀ j, j < s.length → (s.getD j 0 ≤ b ↔ j < UB)) (hUBn : UB ≤ s.length) :
    ∀ fuel i, s.length ≤ fuel + i → 1 ≤ i → i ≤ UB →
      expandHi s b fuel i (i - 1) = UB - 1 := by
  intro fuel
  induction fuel with
  | zero =>
    intro i hfi h1 hUB
    simp only [expandHi]
    omega
  | succ fuel ih =>
    intro i hfi h1 hUB
    simp only [expandHi]
    by_cases hin : i < s.length
    · by_cases hib : s.getD i 0 ≤ b
      · rw [if_pos ⟨hin, hib⟩]
        have hiUB : i < UB := (hchar i hin).mp hib
        have h := ih (i + 1) (by omega) (by omega) (by omega)
        rw [show i - 1 + 1 = (i + 1) - 1 from by omega]
        simpa using h
      · rw [if_neg (by tauto)]
        have := (hchar i hin).not.mp hib
        omega
    · rw [if_neg (by tauto)]
      omega

theorem takeWhile_length_le (p : Nat → Bool) (s : List Nat) :
    (s.takeWhile p).length ≤ s.length := by
  induction s with
  | nil => simp
  | cons x xs ih =>
    by_cases hx : p x = true
    · rw [List.takeWhile_cons_of_pos hx]
      simpa using ih
    · rw [List.takeWhile_cons_of_neg hx]
      simp

/-- C3 (amended): for a sorted timestamp vector and inclusive bounds
`major_of ≤ minor_of` that overlap the stored span *with the lower bound
strictly above the first stored timestamp* (`timestamps[0] < major_of`),
`get_range_indexes` returns an index pair `[lo, hi]` containing exactly the
indices `i` with `major_of ≤ timestamps[i] ≤ minor_of`; in particular on an
exact-match bound all equal neighbours are included (witness: the tie example
`[10, 20, 20, 20, 30]`, range `[20, 20]`).  When `major_of ≤ timestamps[0]`
the expansion loops are skipped and the result can miss in-range rows (see
`get_range_indexes_misses_rows`). -/
theorem get_range_indexes_spec (s : List Nat) (a b : Nat)
    (hs : List.Sorted (· ≤ ·) s) (hn : 0 < s.length) (hsz : s.length < 2 ^ 64)
    (hab : a ≤ b) (hlo : s.getD 0 0 < a) (hhi : a ≤ s.getD (s.length - 1) 0) :
    ∀ i, i < s.length →
      (((get_range_indexes s b a).1 ≤ i ∧ i ≤ (get_range_indexes s b a).2) ↔
       (a ≤ s.getD i 0 ∧ s.getD i 0 ≤ b)) := by
  have hn2 : 2 ≤ s.length := by
    by_contra hlt
    have h1 : s.length = 1 := by omega
    have h0 : s.length - 1 = 0 := by omega
    rw [h0] at hhi
    omega
  -- lower-bound index for `a`
  set LB := (s.takeWhile (fun x => decide (x < a))).length with hLBdef
  have charLt : ∀ j, j < s.length → (s.getD j 0 < a ↔ j < LB) := by
    intro j hj
    have := sorted_takeWhile_char (fun x => decide (x < a))
      (fun x y hxy hy => by simp at hy ⊢; omega) s hs j hj
    simpa using this
  have charA : ∀ j, j < s.length → (a ≤ s.getD j 0 ↔ LB ≤ j) := by
    intro j hj
    have := charLt j hj
    omega
  have hLB1 : 1 ≤ LB := by
    have := charLt 0 (by omega)
    omega
  have hLBn : LB ≤ s.length - 1 := by
    have := charA (s.length - 1) (by omega)
    omega
  -- upper-bound count for `b`
  set UB := (s.takeWhile (fun x => decide (x ≤ b))).length with hUBdef
  have charB : ∀ j, j < s.length → (s.getD j 0 ≤ b ↔ j < UB) := by
    intro j hj
    have := sorted_takeWhile_char (fun x => decide (x ≤ b))
      (fun x y hxy hy => by simp at hy ⊢; omega) s hs j hj
    simpa using this
  have hUBn : UB ≤ s.length := takeWhile_length_le _ s
  have hUB1 : 1 ≤ UB := by
    have := charB 0 (by omega)
    omega
  clear_value LB UB
  -- binary search for the lower bound a
  set lo0 := binsearch s a with hlo0def
  have hmain := (binsearch_props s a hs hn hsz).2.2 hlo hhi
  rw [← hlo0def] at hmain
  clear_value lo0
  have hlo0n : lo0 < s.length := hmain.1
  have hLBlo0 : LB ≤ lo0 := by
    by_cases hpres : ∃ k, k < s.length ∧ s.getD k 0 = a
    · have hfound := hmain.2.1 hpres
      exact (charA lo0 hlo0n).mp (by omega)
    · have habs := hmain.2.2 hpres
      exact (charA lo0 hlo0n).mp (le_of_lt (habs.2 lo0 le_rfl hlo0n))
  clear hmain
  -- binary search for the upper bound b
  set b0 := binsearch s b with hb0def
  clear_value b0
  have hs0b : s.getD 0 0 < b := by omega
  have hb0facts : 1 ≤ b0 ∧ b0 < s.length ∧ b0 ≤ UB := by
    by_cases hblast : s.getD (s.length - 1) 0 < b
    · have hfast := (binsearch_props s b hs hn hsz).2.1 hblast
      rw [← hb0def] at hfast
      have hUBall : UB = s.length := by
        by_contra hne
        have hUBlt : UB < s.length := by omega
        have := (charB UB hUBlt).not.mpr (by omega)
        have hmono := sorted_getD_mono s hs UB (s.length - 1) (by omega) (by omega)
        omega
      omega
    · have hbge : b ≤ s.getD (s.length - 1) 0 := by omega
      have hmainb := (binsearch_props s b hs hn hsz).2.2 hs0b hbge
      rw [← hb0def] at hmainb
      have hb0n : b0 < s.length := hmainb.1
      by_cases hpresb : ∃ k, k < s.length ∧ s.getD k 0 = b
      · have hfound := hmainb.2.1 hpresb
        have hb0UB : b0 < UB := (charB b0 hb0n).mp (by omega)
        have hb01 : 1 ≤ b0 := by
          by_contra hz
          have : b0 = 0 := by omega
          rw [this] at hfound
          omega
        omega
      · have habs := hmainb.2.2 hpresb
        have hb0UB : b0 ≤ UB := by
          by_cases hb0z : b0 = 0
          · omega
          have := (charB (b0 - 1) (by omega)).mp
            (le_of_lt (habs.1 (b0 - 1) (by omega)))
          omega
        have hb01 : 1 ≤ b0 := by
          by_contra hz
          have hz0 : b0 = 0 := by omega
          have := habs.2 0 (by omega) (by omega)
          omega
        omega
  obtain ⟨hb01, hb0n, hb0UB⟩ := hb0facts
  -- assemble the result of get_range_indexes
  have hwsub : wsub b0 1 = b0 - 1 := wsub_eq_sub (by omega) (by omega)
  have hres : get_range_indexes s b a = (LB, UB - 1) := by
    simp only [get_range_indexes, ← hlo0def, ← hb0def, hwsub]
    rw [if_pos ⟨by omega, by omega⟩]
    have he1 : expandLo s a (lo0 - 1) lo0 = LB := by
      have := expandLo_spec s a LB charA hLB1 (lo0 - 1) (by omega) (by omega)
      rw [show lo0 - 1 + 1 = lo0 from by omega] at this
      exact this
    have he2 : expandHi s b s.length (b0 - 1 + 1) (b0 - 1) = UB - 1 := by
      have := expandHi_spec s b UB charB hUBn s.length b0 (by omega) hb01 hb0UB
      rw [show b0 - 1 + 1 = b0 from by omega]
      exact this
    rw [he1, he2]
  rw [hres]
  intro i hi
  have hA := charA i hi
  have hB := charB i hi
  show (LB ≤ i ∧ i ≤ UB - 1) ↔ (a ≤ s.getD i 0 ∧ s.getD i 0 ≤ b)
  omega

/-- Counterexample to C3 as stated: for the sorted vector `[10, 20, 20, 30]`
and the overlapping range `[5, 20]` (so `major_of = 5 ≤ timestamps[0] = 10`),
`get_range_indexes` returns `(0, 0)`, yet index `1` carries timestamp `20`,
inside the range.  The expansion loops only run when `0 < lo`, so a lower
bound at or below the first timestamp leaves equal neighbours of the upper
bound uncollected. -/
theorem get_range_indexes_misses_rows :
    List.Sorted (· ≤ ·) [10, 20, 20, 30] ∧
    (5 : Nat) ≤ 20 ∧
    get_range_indexes [10, 20, 20, 30] 20 5 = (0, 0) ∧
    (5 ≤ [10, 20, 20, 30].getD 1 0 ∧ [10, 20, 20, 30].getD 1 0 ≤ 20) ∧
    ¬ ((get_range_indexes [10, 20, 20, 30] 20 5).1 ≤ 1 ∧
       1 ≤ (get_range_indexes [10, 20, 20, 30] 20 5).2) := by
  decide

/-- Witness for C3: the tie example of the spec — timestamps
`[10, 20, 20, 20, 30]`, range `[20, 20]` — has index 2 (value row 3) inside
the returned range. -/
theorem get_range_indexes_spec_witness :
    (get_range_indexes [10, 20, 20, 20, 30] 20 20).1 ≤ 2 ∧
    2 ≤ (get_range_indexes [10, 20, 20, 20, 30] 20 20).2 :=
  (get_range_indexes_spec [10, 20, 20, 20, 30] 20 20 (by decide) (by decide)
    (by decide) (by decide) (by decide) (by decide) 2 (by decide)).mpr (by decide)

theorem cStep_exact (t w : Nat) (h : t + w * 10 ^ 6 < 2 ^ 53) :
    cStep t w = t + w * 10 ^ 6 := by
  have hw : w ≤ w * 10 ^ 6 := Nat.le_mul_of_pos_right w (by norm_num)
  have h1 : rnd (t : ℚ) = (t : ℚ) := rnd_nat_exact t (by omega)
  have h2 : rnd (w : ℚ) = (w : ℚ) := rnd_nat_exact w (by omega)
  unfold cStep
  rw [h1, h2]
  rw [show ((w : ℚ) * 10 ^ 6) = ((w * 10 ^ 6 : Nat) : ℚ) from by push_cast; ring]
  rw [rnd_nat_exact (w * 10 ^ 6) (by omega)]
  rw [show ((t : ℚ) + ((w * 10 ^ 6 : Nat) : ℚ)) = ((t + w * 10 ^ 6 : Nat) : ℚ) from by
    push_cast; ring]
  rw [rnd_nat_exact (t + w * 10 ^ 6) h]
  unfold toU64
  rw [Int.floor_natCast, Int.toNat_natCast]
  exact Nat.mod_eq_of_lt (by
    calc t + w * 10 ^ 6 < 2 ^ 53 := h
      _ < 2 ^ 64 := by norm_num)

theorem meanScan_some_bounds (T : Timeseries) (step : Nat) :
    ∀ d i t avg j out, T.timestamps.length ≤ d + i →
      meanScan T step i t avg j = some out →
      i ≤ out.2.2.2 ∧ out.2.2.2 < T.timestamps.length := by
  intro d
  induction d with
  | zero =>
    intro i t avg j out hd hm
    rw [meanScan.eq_def] at hm
    split at hm
    · simp at hm
    · rename_i ti hti
      have := (List.get?_eq_some.mp hti).1
      omega
  | succ d ih =>
    intro i t avg j out hd hm
    rw [meanScan.eq_def] at hm
    split at hm
    · simp at hm
    · rename_i ti hti
      have hilt : i < T.timestamps.length := (List.get?_eq_some.mp hti).1
      split at hm
      · split at hm
        · simp at hm
        · rename_i r hci
          have := ih (i + 1) ti (avg + r.value) (j + 1) out (by omega) hm
          exact ⟨by omega, this.2⟩
      · obtain rfl := Option.some.inj hm
        exact ⟨le_rfl, hilt⟩

theorem meanScan_cons (T : Timeseries) (step i t : Nat) (avg : ℚ) (j ti : Nat)
    (r : TtsRecord) (hti : T.timestamps.get? i = some ti) (hle : ti ≤ step)
    (hci : T.columns.get? i = some r) :
    meanScan T step i t avg j =
      meanScan T step (i + 1) ti (avg + r.value) (j + 1) := by
  rw [meanScan.eq_def]
  split
  · rename_i hno
    rw [hno] at hti
    simp at hti
  · rename_i x hx
    rw [hti] at hx
    obtain rfl := Option.some.inj hx
    rw [if_pos hle, hci]

theorem meanOuter_oob (T : Timeseries) (w : Nat)
    (hpair : T.columns.length = T.timestamps.length)
    (hsmall : ∀ t ∈ T.timestamps, t + w * 10 ^ 6 < 2 ^ 53) :
    ∀ fuel i rows, i < T.timestamps.length →
      T.timestamps.length + 1 ≤ fuel + i →
      (meanOuter T w T.timestamps.length fuel i rows).2 = true := by
  intro fuel
  induction fuel with
  | zero =>
    intro i rows hi hf
    omega
  | succ fuel ih =>
    intro i rows hi hf
    simp only [meanOuter, if_pos hi]
    cases hti : T.timestamps.get? i with
    | none =>
      have := List.get?_eq_none.mp hti
      omega
    | some ti =>
      have hgd : T.timestamps.getD i 0 = ti := by
        rw [List.getD_eq_get?, hti]
        rfl
      cases hci : T.columns.get? i with
      | none =>
        have := List.get?_eq_none.mp hci
        omega
      | some r =>
        have hstep : cStep ti w = ti + w * 10 ^ 6 :=
          cStep_exact ti w (hsmall ti (List.get?_mem hti))
        rw [hgd]
        rw [meanScan_cons T (cStep ti w) i 0 0 0 ti r hti (by omega) hci]
        cases hs : meanScan T (cStep ti w) (i + 1) ti (0 + r.value) (0 + 1) with
        | none => rfl
        | some out =>
          have hb := meanScan_some_bounds T (cStep ti w)
            (T.timestamps.length) (i + 1) ti (0 + r.value) (0 + 1) out
            (by omega) hs
          obtain ⟨t', avg', j', i'⟩ := out
          exact ih i' _ hb.2 (by
            have := hb.1
            simp only at this
            omega)

/-- C10: for a well-formed whole-series mean query over a non-empty
timeseries (upper bound `hi` equal to the vector length, every stored
timestamp small enough that the `double` window arithmetic is exact), the
window-accumulation loop of `handle_tts_query_mean` always evaluates
`TTS_VECTOR_AT(ts->timestamps, i)` at `i` equal to the vector length — one
past the last element: in this total embedding, where out-of-range access
is `none`, the run is flagged as having taken the out-of-range branch. -/
theorem mean_query_reads_one_past_end (T : Timeseries) (w : Nat)
    (hpair : T.columns.length = T.timestamps.length)
    (hne : 0 < T.timestamps.length)
    (hsmall : ∀ t ∈ T.timestamps, t + w * 10 ^ 6 < 2 ^ 53) :
    (handle_tts_query_mean T 0 T.timestamps.length w).2 = true := by
  unfold handle_tts_query_mean
  exact meanOuter_oob T w hpair hsmall (T.timestamps.length + 1) 0 [] hne (by omega)

/-- Witness for C10: a singleton series (one point, timestamp 5, value 7)
with window 1 hits the out-of-range read. -/
theorem mean_query_reads_one_past_end_witness :
    (handle_tts_query_mean ⟨0, [5], [⟨0, 7, []⟩], []⟩ 0 1 1).2 = true :=
  mean_query_reads_one_past_end ⟨0, [5], [⟨0, 7, []⟩], []⟩ 1 (by decide)
    (by decide) (by decide)

theorem meanScan_stop (T : Timeseries) (step i t : Nat) (avg : ℚ) (j ti : Nat)
    (hti : T.timestamps.get? i = some ti) (hgt : step < ti) :
    meanScan T step i t avg j = some (t, avg, j, i) := by
  rw [meanScan.eq_def]
  split
  · rename_i hno
    rw [hno] at hti
    simp at hti
  · rename_i x hx
    rw [hti] at hx
    obtain rfl := Option.some.inj hx
    rw [if_neg (by omega)]

theorem meanScan_oob (T : Timeseries) (step i t : Nat) (avg : ℚ) (j : Nat)
    (hti : T.timestamps.get? i = none) :
    meanScan T step i t avg j = none := by
  rw [meanScan.eq_def]
  split
  · rfl
  · rename_i x hx
    rw [hti] at hx
    simp at hx

theorem greedyRows_nil (w fuel : Nat) : greedyRows w fuel [] = [] := by
  cases fuel <;> rfl

theorem greedyRows_ne_nil (w fuel : Nat) (p : Nat × ℚ) (ps : List (Nat × ℚ))
    (hf : 0 < fuel) : greedyRows w fuel (p :: ps) ≠ [] := by
  cases fuel with
  | zero => omega
  | succ fuel => simp [greedyRows]

theorem meanScan_takeWhile (T : Timeseries)
    (hpair : T.columns.length = T.timestamps.length) (step : Nat) :
    ∀ d i t avg j, T.timestamps.length ≤ d + i →
      (((meanPts T).drop i).dropWhile (fun q => decide (q.1 ≤ step)) = [] →
        meanScan T step i t avg j = none) ∧
      (((meanPts T).drop i).dropWhile (fun q => decide (q.1 ≤ step)) ≠ [] →
        meanScan T step i t avg j =
          some
            (((((meanPts T).drop i).takeWhile
                (fun q => decide (q.1 ≤ step))).map Prod.fst).getLastD t,
             avg + ((((meanPts T).drop i).takeWhile
                (fun q => decide (q.1 ≤ step))).map Prod.snd).sum,
             j + (((meanPts T).drop i).takeWhile
                (fun q => decide (q.1 ≤ step))).length,
             i + (((meanPts T).drop i).takeWhile
                (fun q => decide (q.1 ≤ step))).length)) := by
  have hlen : (meanPts T).length = T.timestamps.length := by
    simp [meanPts, List.length_zip, hpair]
  intro d
  induction d with
  | zero =>
    intro i t avg j hd
    have hdrop : (meanPts T).drop i = [] := List.drop_eq_nil_of_le (by omega)
    rw [hdrop]
    constructor
    · intro _
      exact meanScan_oob T step i t avg j
        (by rw [List.get?_eq_getElem?]; exact List.getElem?_eq_none (by omega))
    · intro hne
      simp at hne
  | succ d ih =>
    intro i t avg j hd
    by_cases hin : i < T.timestamps.length
    · have hips : i < (meanPts T).length := by omega
      have hic : i < T.columns.length := by omega
      have hdropc : (meanPts T).drop i = (meanPts T)[i] :: (meanPts T).drop (i + 1) :=
        List.drop_eq_getElem_cons hips
      have hfst : (meanPts T)[i].1 = T.timestamps[i] := by
        simp [meanPts, List.getElem_zip]
      have hsnd : (meanPts T)[i].2 = (T.columns.get ⟨i, hic⟩).value := by
        simp [meanPts, List.getElem_zip, List.getElem_map, List.get_eq_getElem]
      have hti : T.timestamps.get? i = some (T.timestamps[i]) := by
        rw [List.get?_eq_getElem?]
        exact List.getElem?_eq_getElem hin
      have hci : T.columns.get? i = some (T.columns.get ⟨i, hic⟩) :=
        List.get?_eq_get hic
      by_cases hle : T.timestamps[i] ≤ step
      · have hP : (fun q : Nat × ℚ => decide (q.1 ≤ step)) ((meanPts T)[i]) = true := by
          simp only [hfst]
          simpa using hle
        have hscan := meanScan_cons T step i t avg j (T.timestamps[i])
          (T.columns.get ⟨i, hic⟩) hti hle hci
        have IH := ih (i + 1) (T.timestamps[i])
          (avg + (T.columns.get ⟨i, hic⟩).value) (j + 1) (by omega)
        have hdw : ((meanPts T)[i] :: (meanPts T).drop (i + 1)).dropWhile
            (fun q : Nat × ℚ => decide (q.1 ≤ step)) =
            ((meanPts T).drop (i + 1)).dropWhile (fun q : Nat × ℚ => decide (q.1 ≤ step)) :=
          List.dropWhile_cons_of_pos hP
        have htw : ((meanPts T)[i] :: (meanPts T).drop (i + 1)).takeWhile
            (fun q : Nat × ℚ => decide (q.1 ≤ step)) =
            (meanPts T)[i] ::
              ((meanPts T).drop (i + 1)).takeWhile (fun q : Nat × ℚ => decide (q.1 ≤ step)) :=
          List.takeWhile_cons_of_pos hP
        rw [hdropc, hdw, htw]
        constructor
        · intro hnil
          rw [hscan]
          exact IH.1 hnil
        · intro hne
          rw [hscan, IH.2 hne]
          simp only [List.map_cons, List.length_cons, List.sum_cons,
            List.getLastD_cons, Option.some.injEq, Prod.mk.injEq]
          refine ⟨by rw [hfst], by rw [hsnd]; ring, by omega, by omega⟩
      · have hP : ¬ (fun q : Nat × ℚ => decide (q.1 ≤ step)) ((meanPts T)[i]) = true := by
          simp only [hfst]
          simpa using hle
        have hdw : ((meanPts T)[i] :: (meanPts T).drop (i + 1)).dropWhile
            (fun q : Nat × ℚ => decide (q.1 ≤ step)) =
            (meanPts T)[i] :: (meanPts T).drop (i + 1) :=
          List.dropWhile_cons_of_neg hP
        have htw : ((meanPts T)[i] :: (meanPts T).drop (i + 1)).takeWhile
            (fun q : Nat × ℚ => decide (q.1 ≤ step)) = [] :=
          List.takeWhile_cons_of_neg hP
        rw [hdropc, hdw, htw]
        constructor
        · intro hnil
          exact absurd hnil (List.cons_ne_nil _ _)
        · intro _
          rw [meanScan_stop T step i t avg j (T.timestamps[i]) hti (by omega)]
          simp
    · have hdrop : (meanPts T).drop i = [] := List.drop_eq_nil_of_le (by omega)
      rw [hdrop]
      constructor
      · intro _
        exact meanScan_oob T step i t avg j
          (by rw [List.get?_eq_getElem?]; exact List.getElem?_eq_none (by omega))
      · intro hne
        simp at hne

theorem meanOuter_greedy (T : Timeseries) (w : Nat)
    (hpair : T.columns.length = T.timestamps.length)
    (hsmall : ∀ t ∈ T.timestamps, t + w * 10 ^ 6 < 2 ^ 53) :
    ∀ fuel i rows, i ≤ T.timestamps.length →
      T.timestamps.length + 1 ≤ fuel + i →
      meanOuter T w T.timestamps.length fuel i rows =
        (rows.reverse ++ (greedyRows w fuel ((meanPts T).drop i)).dropLast,
         decide (i < T.timestamps.length)) := by
  have hlen : (meanPts T).length = T.timestamps.length := by
    simp [meanPts, List.length_zip, hpair]
  intro fuel
  induction fuel with
  | zero =>
    intro i rows hi hf
    omega
  | succ fuel ih =>
    intro i rows hi hf
    by_cases hin : i < T.timestamps.length
    · have hips : i < (meanPts T).length := by omega
      have hic : i < T.columns.length := by omega
      have hdropc : (meanPts T).drop i = (meanPts T)[i] :: (meanPts T).drop (i + 1) :=
        List.drop_eq_getElem_cons hips
      have hfst : (meanPts T)[i].1 = T.timestamps[i] := by
        simp [meanPts, List.getElem_zip]
      have hgd : T.timestamps.getD i 0 = T.timestamps[i] := by
        rw [List.getD_eq_get?, List.get?_eq_getElem?, List.getElem?_eq_getElem hin]
        rfl
      have hstep : cStep (T.timestamps[i]) w = T.timestamps[i] + w * 10 ^ 6 :=
        cStep_exact _ w (hsmall _ (List.getElem_mem hin))
      have hscan := meanScan_takeWhile T hpair (cStep (T.timestamps[i]) w)
        (T.timestamps.length + 1) i 0 0 0 (by omega)
      set g := ((meanPts T).drop i).takeWhile
        (fun q : Nat × ℚ => decide (q.1 ≤ cStep (T.timestamps[i]) w)) with hgdef
      set rest := ((meanPts T).drop i).dropWhile
        (fun q : Nat × ℚ => decide (q.1 ≤ cStep (T.timestamps[i]) w)) with hrestdef
      have hsplit : g ++ rest = (meanPts T).drop i := by
        rw [hgdef, hrestdef]
        exact List.takeWhile_append_dropWhile _ _
      have hgreedy : greedyRows w (fuel + 1) ((meanPts T).drop i) =
          ⟨TTS_OK, ((g.map Prod.fst).getLastD 0) / 10 ^ 9,
            ((g.map Prod.fst).getLastD 0) % 10 ^ 9,
            (g.map Prod.snd).sum / ((g.length : ℚ)), []⟩ ::
            greedyRows w fuel rest := by
        rw [hgdef, hrestdef, hdropc]
        simp only [greedyRows]
        rw [hfst, ← hstep]
      by_cases hrest0 : rest = []
      · have hnone := hscan.1 hrest0
        simp only [meanOuter, if_pos hin]
        rw [hgd]
        cases hms : meanScan T (cStep (T.timestamps[i]) w) i 0 0 0 with
        | none =>
          rw [hgreedy, hrest0, greedyRows_nil, List.dropLast_single]
          simp [hin]
        | some out =>
          rw [hnone] at hms
          exact Option.noConfusion hms
      · have hsome := hscan.2 hrest0
        have hPi : (fun q : Nat × ℚ =>
            decide (q.1 ≤ cStep (T.timestamps[i]) w)) ((meanPts T)[i]) = true := by
          simp only [hfst, hstep]
          simp
        have htw : g = (meanPts T)[i] :: ((meanPts T).drop (i + 1)).takeWhile
            (fun q : Nat × ℚ => decide (q.1 ≤ cStep (T.timestamps[i]) w)) := by
          rw [hgdef, hdropc]
          exact List.takeWhile_cons_of_pos hPi
        have hglen : 1 ≤ g.length := by
          rw [htw]
          simp
        have hrestdrop : (meanPts T).drop (i + g.length) = rest := by
          have h2 : ((meanPts T).drop i).drop g.length = rest := by
            conv_lhs => rw [← hsplit]
            exact List.drop_left g rest
          rw [← h2, List.drop_drop]
        have hi'lt : i + g.length < T.timestamps.length := by
          by_contra hge
          exact hrest0 (by
            rw [← hrestdrop]
            exact List.drop_eq_nil_of_le (by omega))
        have hGne : greedyRows w fuel rest ≠ [] := by
          rcases hG : rest with _ | ⟨p, ps⟩
          · exact absurd hG hrest0
          · exact greedyRows_ne_nil w fuel p ps (by omega)
        have hdl : (greedyRows w (fuel + 1) ((meanPts T).drop i)).dropLast =
            (⟨TTS_OK, ((g.map Prod.fst).getLastD 0) / 10 ^ 9,
              ((g.map Prod.fst).getLastD 0) % 10 ^ 9,
              (g.map Prod.snd).sum / ((g.length : ℚ)), []⟩ : HRow) ::
              (greedyRows w fuel rest).dropLast := by
          rw [hgreedy]
          exact List.dropLast_cons_of_ne_nil hGne
        simp only [meanOuter, if_pos hin]
        rw [hgd]
        cases hms : meanScan T (cStep (T.timestamps[i]) w) i 0 0 0 with
        | none =>
          rw [hsome] at hms
          exact Option.noConfusion hms
        | some out =>
          obtain ⟨t', avg', j', i'⟩ := out
          rw [hsome] at hms
          simp only [Option.some.injEq, Prod.mk.injEq] at hms
          obtain ⟨h1, h2, h3, h4⟩ := hms
          subst h1
          subst h2
          subst h3
          subst h4
          simp only [zero_add]
          rw [ih (i + g.length)
            ((⟨TTS_OK, ((g.map Prod.fst).getLastD 0) / 10 ^ 9,
              ((g.map Prod.fst).getLastD 0) % 10 ^ 9,
              (g.map Prod.snd).sum / ((g.length : ℚ)), []⟩ : HRow) :: rows)
            (by omega) (by omega)]
          rw [hrestdrop, hdl]
          simp [List.reverse_cons, List.append_assoc, hin, hi'lt]
    · have hdrop : (meanPts T).drop i = [] := List.drop_eq_nil_of_le (by omega)
      rw [hdrop, greedyRows_nil]
      simp [meanOuter, hin]

/-- C4 (amended): for a mean query without a range (`lo = 0`,
`hi = size`) over a non-empty timeseries whose timestamps are small enough
that the `double` arithmetic `ts[i] + window * 1e6` is exact, the output
rows are NOT those of a fixed-window partition anchored at the first
sample.  Instead each window is re-anchored at the first not-yet-consumed
sample `p` and greedily absorbs every following sample with timestamp
`≤ p.ts + window * 10^6`; the emitted row carries the timestamp of the
*last sample consumed* (not a window boundary), the group's arithmetic
mean, and an empty label list (`greedyRows`).  The final group's scan
always runs one past the end of the vector (the C code reads
`timestamps[size]`, undefined behaviour — see C10), so in this embedding
the final group's row is not modelled and the out-of-bounds flag is set.
Empty windows cannot occur (re-anchoring), and the fixed-window behaviour
claimed by the spec is refuted by `mean_rows_not_fixed_windows`. -/
theorem mean_no_range_rows_are_greedy_groups (T : Timeseries) (w : Nat)
    (hpair : T.columns.length = T.timestamps.length)
    (hsmall : ∀ t ∈ T.timestamps, t + w * 10 ^ 6 < 2 ^ 53) :
    handle_tts_query_mean T 0 T.timestamps.length w =
      ((greedyRows w (T.timestamps.length + 1) (meanPts T)).dropLast,
       decide (0 < T.timestamps.length)) := by
  unfold handle_tts_query_mean
  have h := meanOuter_greedy T w hpair hsmall (T.timestamps.length + 1) 0 []
    (by omega) (by omega)
  simpa using h

/-- Counterexample to C4 as stated: two samples at timestamps `0` and
`5000000` ns with values `10` and `20`, window 2 ms.  The spec's
fixed-window partition (windows of `2000000` ns anchored at the first
sample, rows stamped with the end boundary crossed, the empty middle
window skipped) yields rows stamped `2000000` and `6000000` ns.  The
code's output row is stamped with the *sample* timestamp `0`, and only one
row is produced before the accumulation loop runs off the end of the
vector. -/
theorem mean_rows_not_fixed_windows :
    (handle_tts_query_mean ⟨0, [0, 5000000], [⟨0, 10, []⟩, ⟨1, 20, []⟩], []⟩ 0 2 2).1 =
      [⟨TTS_OK, 0, 0, 10, []⟩] ∧
    specFixedWindowRows 2000000 0 3 [(0, 10), (5000000, 20)] =
      [⟨TTS_OK, 0, 2000000, 10, []⟩, ⟨TTS_OK, 0, 6000000, 20, []⟩] ∧
    ¬ ((handle_tts_query_mean ⟨0, [0, 5000000], [⟨0, 10, []⟩, ⟨1, 20, []⟩], []⟩ 0 2 2).1 =
       specFixedWindowRows 2000000 0 3 [(0, 10), (5000000, 20)]) := by
  have h := meanOuter_greedy ⟨0, [0, 5000000], [⟨0, 10, []⟩, ⟨1, 20, []⟩], []⟩ 2
    (by decide) (by norm_num) 3 0 [] (by decide) (by decide)
  norm_num at h
  have h1 : (handle_tts_query_mean
      ⟨0, [0, 5000000], [⟨0, 10, []⟩, ⟨1, 20, []⟩], []⟩ 0 2 2).1 =
      [⟨TTS_OK, 0, 0, 10, []⟩] := by
    rw [show (handle_tts_query_mean
        ⟨0, [0, 5000000], [⟨0, 10, []⟩, ⟨1, 20, []⟩], []⟩ 0 2 2) =
      meanOuter ⟨0, [0, 5000000], [⟨0, 10, []⟩, ⟨1, 20, []⟩], []⟩ 2 2 3 0 []
      from rfl]
    rw [h]
    norm_num [greedyRows, meanPts, List.takeWhile_cons, List.dropWhile_cons,
      List.getLastD_cons, TTS_OK]
  have h2 : specFixedWindowRows 2000000 0 3 [(0, 10), (5000000, 20)] =
      [⟨TTS_OK, 0, 2000000, 10, []⟩, ⟨TTS_OK, 0, 6000000, 20, []⟩] := by
    norm_num [specFixedWindowRows, List.range_succ, List.filter_cons,
      List.filterMap_cons, TTS_OK]
  refine ⟨h1, h2, ?_⟩
  rw [h1, h2]
  simp

/-- Witness for C4: the two-sample series of the counterexample, window
2 ms — the handler's output is exactly the greedy grouping with the last
group dropped and the out-of-bounds flag set. -/
theorem mean_no_range_rows_are_greedy_groups_witness :
    handle_tts_query_mean ⟨0, [0, 5000000], [⟨0, 10, []⟩, ⟨1, 20, []⟩], []⟩ 0 2 2 =
      ((greedyRows 2 3
        (meanPts ⟨0, [0, 5000000], [⟨0, 10, []⟩, ⟨1, 20, []⟩], []⟩)).dropLast, true) :=
  mean_no_range_rows_are_greedy_groups _ 2 (by decide) (by norm_num)
